import Mathlib

/-!
# Verification of the VeriSec audit pipeline

A shallow embedding, in Lean 4, of the parts of the VeriSec repository that
its specification makes claims about:

* the canonical-JSON serialization (`stableStringify` / `normalizeValue`,
  present verbatim in `apps/api/src/proofs.ts` and in the web application's
  audit library),
* the Merkle proof engine (`apps/api/src/proofs.ts`),
* the signature verification module (`apps/api/src/signatures.ts`),
* the transactional storage layer (`insertAudit` and friends),
* the `POST /v1/submissions` route handler of the API service, and
* the `SecurityAnchor` Solidity contract.

Host-language library primitives that wrap cryptography or the platform
(Keccak-256, ECDSA recovery, EIP-55 checksumming, date parsing) are taken
as parameters of the embedding; every theorem below holds for an arbitrary
choice of them unless stated otherwise.
-/

namespace VeriSec

/-! ## Character-code helpers

All string comparisons in the source operate on JavaScript strings.  We
work with the code-point sequence of a `String` (`String.toList` mapped
through `Char.toNat`); the strings the repository compares (object keys,
finding ids, hex digests) are ASCII.
-/

/-- The code-point sequence of a string. -/
def codes (s : String) : List Nat :=
  s.toList.map Char.toNat

/-- ASCII lowercasing on a single code point, as performed by
`String.prototype.toLowerCase` on ASCII input. -/
def lowerN (n : Nat) : Nat :=
  if 65 ≤ n ∧ n ≤ 90 then n + 32 else n

/-- `1` on an ASCII uppercase letter, `0` otherwise; used as the tertiary
(case) collation weight. -/
def upperFlag (n : Nat) : Nat :=
  if 65 ≤ n ∧ n ≤ 90 then 1 else 0

/-- Lexicographic comparison of code sequences.  This is exactly the
comparison JavaScript's `<`/`<=` operators perform on strings. -/
def cmpNatList : List Nat → List Nat → Ordering
  | [], [] => .eq
  | [], _ :: _ => .lt
  | _ :: _, [] => .gt
  | a :: as, b :: bs => (compare a b).then (cmpNatList as bs)

/-- Plain code-point comparison of strings (JavaScript's built-in string
ordering).  The specification's words "plain string comparison" and
"lexicographic (code-point) order" denote this ordering. -/
def cpLeString (a b : String) : Bool :=
  cmpNatList (codes a) (codes b) ≠ .gt

/-- The lowercased code sequence of a string. -/
def lowerCodes (s : String) : List Nat :=
  (codes s).map lowerN

/-- The case-weight sequence of a string. -/
def caseCodes (s : String) : List Nat :=
  (codes s).map upperFlag

/-- Model of `String.prototype.localeCompare` (no arguments) under the
default ICU root collation, restricted to ASCII strings: a primary pass
compares the strings case-insensitively, and ties are broken by a tertiary
pass in which a lowercase letter sorts before its uppercase form.  The
source relies on `localeCompare` for object-key ordering and finding-id
ordering; for the ASCII keys and ids the repository handles this model is
the observed Node.js behaviour (for example `"a".localeCompare("B") < 0`,
while `"a" < "B"` is false on code points). -/
def jsLocaleCompare (s t : String) : Ordering :=
  (cmpNatList (lowerCodes s) (lowerCodes t)).then
    (cmpNatList (caseCodes s) (caseCodes t))

/-- The "keep this order" predicate of a JavaScript comparator: the sort
comparator `(a, b) => a.localeCompare(b)` orders `a` no later than `b`
exactly when the comparison does not return a positive number. -/
def localeLe (a b : String) : Bool :=
  jsLocaleCompare a b ≠ .gt

/-! ## A stable comparator sort

`Array.prototype.sort` is specified to be stable; any stable sort agrees
with insertion sort on a consistent comparator, so we model it by
insertion sort parameterised by the comparator's "keep this order"
predicate. -/

/-- Insert `a` into `l` in front of the first element `b` with `le a b`. -/
def orderedInsertBy (le : α → α → Bool) (a : α) : List α → List α
  | [] => [a]
  | b :: l => if le a b then a :: b :: l else b :: orderedInsertBy le a l

/-- Stable insertion sort by a Boolean "keep this order" predicate. -/
def insertionSortBy (le : α → α → Bool) : List α → List α
  | [] => []
  | a :: l => orderedInsertBy le a (insertionSortBy le l)

theorem orderedInsertBy_perm (le : α → α → Bool) (a : α) (l : List α) :
    (orderedInsertBy le a l).Perm (a :: l) := by
  induction l with
  | nil => simp [orderedInsertBy]
  | cons b l ih =>
    by_cases h : le a b = true
    · simp [orderedInsertBy, h]
    · simp only [orderedInsertBy, h]
      simp only [Bool.false_eq_true, if_false]
      exact (ih.cons b).trans (List.Perm.swap a b l)

theorem insertionSortBy_perm (le : α → α → Bool) (l : List α) :
    (insertionSortBy le l).Perm l := by
  induction l with
  | nil => simp [insertionSortBy]
  | cons a l ih =>
    exact (orderedInsertBy_perm le a (insertionSortBy le l)).trans (ih.cons a)

theorem mem_insertionSortBy {le : α → α → Bool} {l : List α} {a : α} :
    a ∈ insertionSortBy le l ↔ a ∈ l :=
  (insertionSortBy_perm le l).mem_iff

/-- Adjacent-pair sortedness of a list under a Boolean predicate. -/
def chainLeBy (le : α → α → Bool) : List α → Bool
  | [] => true
  | [_] => true
  | a :: b :: l => le a b && chainLeBy le (b :: l)

theorem chainLeBy_cons {le : α → α → Bool} {a b : α} {l : List α} :
    chainLeBy le (a :: b :: l) = (le a b && chainLeBy le (b :: l)) := rfl

theorem orderedInsertBy_chain {le : α → α → Bool}
    (total : ∀ x y, le x y = false → le y x = true) (a : α) :
    ∀ l : List α, chainLeBy le l = true →
      chainLeBy le (orderedInsertBy le a l) = true := by
  intro l
  induction l with
  | nil => intro _; simp [orderedInsertBy, chainLeBy]
  | cons b l ih =>
    intro hch
    by_cases hab : le a b = true
    · simp only [orderedInsertBy, hab, if_true]
      rw [chainLeBy_cons, hab, Bool.true_and]
      exact hch
    · simp only [orderedInsertBy, hab]
      simp only [Bool.false_eq_true, if_false]
      have hba : le b a = true := total a b (by simpa using hab)
      cases l with
      | nil =>
        simp [orderedInsertBy, chainLeBy, hba]
      | cons c l' =>
        rw [chainLeBy_cons] at hch
        have hbc : le b c = true := by
          cases hx : le b c <;> simp [hx] at hch ⊢
        have hch' : chainLeBy le (c :: l') = true := by
          cases hx : chainLeBy le (c :: l') <;> simp [hx] at hch ⊢
        have htail := ih hch'
        by_cases hac : le a c = true
        · simp only [orderedInsertBy, hac, if_true] at htail ⊢
          rw [chainLeBy_cons, hba, Bool.true_and]
          exact htail
        · simp only [orderedInsertBy, hac] at htail ⊢
          simp only [Bool.false_eq_true, if_false] at htail ⊢
          rw [chainLeBy_cons, hbc, Bool.true_and]
          exact htail

theorem insertionSortBy_chain {le : α → α → Bool}
    (total : ∀ x y, le x y = false → le y x = true) (l : List α) :
    chainLeBy le (insertionSortBy le l) = true := by
  induction l with
  | nil => simp [insertionSortBy, chainLeBy]
  | cons a l ih =>
    exact orderedInsertBy_chain total a _ ih

/-! ## JavaScript values

The canonicalization routines operate on arbitrary JavaScript values as
produced by `JSON.parse` plus the `undefined` value (`normalizeValue`
treats `undefined` object fields as absent).  Numbers are modelled as
integers: every number the repository serializes (line numbers, counts)
is integral, and no claim depends on float formatting. -/

inductive JsValue where
  | undef
  | null
  | bool (b : Bool)
  | num (n : Int)
  | str (s : String)
  | arr (items : List JsValue)
  | obj (entries : List (String × JsValue))
deriving Repr

/-- `true` exactly on JavaScript `undefined`. -/
def JsValue.isUndef : JsValue → Bool
  | .undef => true
  | _ => false

/-- `normalizeValue` from `apps/api/src/proofs.ts` (lines 130–148): arrays
are normalized element-wise in order; objects drop entries whose value is
`undefined`, sort the remaining entries by `localeCompare` on the key
(`.sort(([a], [b]) => a.localeCompare(b))`, a stable comparator sort), and
normalize each kept value; every other value is returned unchanged. -/
def normalizeValue : JsValue → JsValue
  | .undef => .undef
  | .null => .null
  | .bool b => .bool b
  | .num n => .num n
  | .str s => .str s
  | .arr items => .arr (items.attach.map fun x => normalizeValue x.1)
  | .obj entries =>
    let kept := entries.filter fun e => !e.2.isUndef
    let sorted := insertionSortBy (fun p q => localeLe p.1 q.1) kept
    .obj (sorted.attach.map fun x => (x.1.1, normalizeValue x.1.2))
termination_by v => sizeOf v
decreasing_by
  all_goals simp_wf
  · rename_i items
    have h1 : sizeOf x.1 < sizeOf items := List.sizeOf_lt_of_mem x.2
    omega
  · rename_i entries
    have hin : x.1 ∈ kept := mem_insertionSortBy.mp x.2
    have hin2 : x.1 ∈ entries := List.mem_of_mem_filter hin
    have h1 : sizeOf x.1 < sizeOf entries := List.sizeOf_lt_of_mem hin2
    have h2 : sizeOf x.1.2 < sizeOf x.1 := by
      obtain ⟨k, v⟩ := x.1
      simp only [Prod.mk.sizeOf_spec]
      omega
    omega

/-- Mapping a member-irrelevant function over `List.attach`. -/
theorem attach_map_fst {l : List α} (g : α → β) :
    l.attach.map (fun x => g x.1) = l.map g := by
  induction l with
  | nil => rfl
  | cons a l ih =>
    simp [List.attach_cons, Function.comp, ih]

/-- Unfolding `normalizeValue` on arrays without the `attach` plumbing. -/
theorem normalizeValue_arr (items : List JsValue) :
    normalizeValue (.arr items) = .arr (items.map normalizeValue) := by
  rw [normalizeValue]
  exact congrArg JsValue.arr (attach_map_fst normalizeValue)

/-- Unfolding `normalizeValue` on objects without the `attach` plumbing. -/
theorem normalizeValue_obj (entries : List (String × JsValue)) :
    normalizeValue (.obj entries) =
      .obj ((insertionSortBy (fun p q => localeLe p.1 q.1)
              (entries.filter fun e => !e.2.isUndef)).map
            fun e => (e.1, normalizeValue e.2)) := by
  rw [normalizeValue]
  exact congrArg JsValue.obj
    (attach_map_fst fun e : String × JsValue => (e.1, normalizeValue e.2))

/-! ## `JSON.stringify`

A model of the ECMAScript `JSON.stringify` builtin on `JsValue` (no
replacer, no spacing — the compact form the repository uses): the result
is `none` exactly when the argument is `undefined`; `undefined` array
elements print as `null`; object entries whose value is `undefined` are
skipped.  Strings are quoted with the standard JSON escapes. -/

/-- Two lowercase hex digits of a byte, used for control-character escapes
and for hex-encoding digests. -/
def hexDigitCode (n : Nat) : Nat :=
  if n < 10 then 48 + n else 87 + n

/-- The JSON escape of a single character, per `JSON.stringify`. -/
def escapeJsonChar (c : Char) : String :=
  if c = '"' then "\\\""
  else if c = '\\' then "\\\\"
  else if c.toNat = 8 then "\\b"
  else if c.toNat = 9 then "\\t"
  else if c.toNat = 10 then "\\n"
  else if c.toNat = 12 then "\\f"
  else if c.toNat = 13 then "\\r"
  else if c.toNat < 32 then
    "\\u00" ++ String.mk [Char.ofNat (hexDigitCode (c.toNat / 16)),
                          Char.ofNat (hexDigitCode (c.toNat % 16))]
  else String.singleton c

/-- A JSON string literal: quotes around the escaped characters. -/
def quoteJson (s : String) : String :=
  "\"" ++ String.join (s.toList.map escapeJsonChar) ++ "\""

/-- `JSON.stringify` (compact). -/
def jsonStringify : JsValue → Option String
  | .undef => none
  | .null => some "null"
  | .bool b => some (if b then "true" else "false")
  | .num n => some (toString n)
  | .str s => some (quoteJson s)
  | .arr items =>
    some ("[" ++ String.intercalate ","
      (items.attach.map fun x => (jsonStringify x.1).getD "null") ++ "]")
  | .obj entries =>
    some ("\x7b" ++ String.intercalate ","
      ((entries.attach.map fun x =>
          (jsonStringify x.1.2).map fun body => quoteJson x.1.1 ++ ":" ++ body).reduceOption)
      ++ "\x7d")
termination_by v => sizeOf v
decreasing_by
  all_goals simp_wf
  · rename_i items
    have h1 : sizeOf x.1 < sizeOf items := List.sizeOf_lt_of_mem x.2
    omega
  · rename_i entries
    have h1 : sizeOf x.1 < sizeOf entries := List.sizeOf_lt_of_mem x.2
    have h2 : sizeOf x.1.2 < sizeOf x.1 := by
      obtain ⟨k, v⟩ := x.1
      simp only [Prod.mk.sizeOf_spec]
      omega
    omega

/-- `stableStringify` from `apps/api/src/proofs.ts` (lines 126–128):
`JSON.stringify(normalizeValue(value))`.  The result is a string for every
input except `undefined` itself (where `JSON.stringify` returns
`undefined`, modelled as `none`). -/
def stableStringify (v : JsValue) : Option String :=
  jsonStringify (normalizeValue v)

/-- `normalizeValue` as implemented a second time in the web application's
audit library (`apps/web`, same text as the API copy). -/
def webNormalizeValue : JsValue → JsValue
  | .undef => .undef
  | .null => .null
  | .bool b => .bool b
  | .num n => .num n
  | .str s => .str s
  | .arr items => .arr (items.attach.map fun x => webNormalizeValue x.1)
  | .obj entries =>
    let kept := entries.filter fun e => !e.2.isUndef
    let sorted := insertionSortBy (fun p q => localeLe p.1 q.1) kept
    .obj (sorted.attach.map fun x => (x.1.1, webNormalizeValue x.1.2))
termination_by v => sizeOf v
decreasing_by
  all_goals simp_wf
  · rename_i items
    have h1 : sizeOf x.1 < sizeOf items := List.sizeOf_lt_of_mem x.2
    omega
  · rename_i entries
    have hin : x.1 ∈ kept := mem_insertionSortBy.mp x.2
    have hin2 : x.1 ∈ entries := List.mem_of_mem_filter hin
    have h1 : sizeOf x.1 < sizeOf entries := List.sizeOf_lt_of_mem hin2
    have h2 : sizeOf x.1.2 < sizeOf x.1 := by
      obtain ⟨k, v⟩ := x.1
      simp only [Prod.mk.sizeOf_spec]
      omega
    omega

/-- `stableStringify` as implemented a second time in the web
application's audit library. -/
def webStableStringify (v : JsValue) : Option String :=
  jsonStringify (webNormalizeValue v)

/-- Unfolding `webNormalizeValue` on arrays. -/
theorem webNormalizeValue_arr (items : List JsValue) :
    webNormalizeValue (.arr items) = .arr (items.map webNormalizeValue) := by
  rw [webNormalizeValue]
  exact congrArg JsValue.arr (attach_map_fst webNormalizeValue)

/-- Unfolding `webNormalizeValue` on objects. -/
theorem webNormalizeValue_obj (entries : List (String × JsValue)) :
    webNormalizeValue (.obj entries) =
      .obj ((insertionSortBy (fun p q => localeLe p.1 q.1)
              (entries.filter fun e => !e.2.isUndef)).map
            fun e => (e.1, webNormalizeValue e.2)) := by
  rw [webNormalizeValue]
  exact congrArg JsValue.obj
    (attach_map_fst fun e : String × JsValue => (e.1, webNormalizeValue e.2))

/-- The two textually identical copies of `normalizeValue` compute the
same function. -/
theorem normalizeValue_eq_webNormalizeValue (v : JsValue) :
    normalizeValue v = webNormalizeValue v := by
  induction v using normalizeValue.induct with
  | case1 => simp [normalizeValue, webNormalizeValue]
  | case2 => simp [normalizeValue, webNormalizeValue]
  | case3 b => simp [normalizeValue, webNormalizeValue]
  | case4 n => simp [normalizeValue, webNormalizeValue]
  | case5 s => simp [normalizeValue, webNormalizeValue]
  | case6 items ih =>
    rw [normalizeValue_arr, webNormalizeValue_arr]
    exact congrArg JsValue.arr (List.map_congr_left fun a ha => ih ⟨a, ha⟩)
  | case7 entries kept sorted ih =>
    rw [normalizeValue_obj, webNormalizeValue_obj]
    refine congrArg JsValue.obj (List.map_congr_left fun e he => ?_)
    exact congrArg (Prod.mk e.1) (ih ⟨e, he⟩)

/-! ## Order-theoretic facts about the comparator model -/

theorem cmpNatList_swap (a b : List Nat) :
    cmpNatList b a = (cmpNatList a b).swap := by
  induction a generalizing b with
  | nil => cases b <;> rfl
  | cons x xs ih =>
    cases b with
    | nil => rfl
    | cons y ys =>
      simp only [cmpNatList]
      rw [← Nat.compare_swap, ih ys]
      cases compare x y <;> cases cmpNatList xs ys <;> rfl

theorem cmpNatList_eq_iff (a b : List Nat) :
    cmpNatList a b = .eq ↔ a = b := by
  induction a generalizing b with
  | nil => cases b <;> simp [cmpNatList]
  | cons x xs ih =>
    cases b with
    | nil => simp [cmpNatList]
    | cons y ys =>
      simp only [cmpNatList]
      constructor
      · intro h
        cases hxy : compare x y with
        | lt => rw [hxy] at h; simp [Ordering.then] at h
        | gt => rw [hxy] at h; simp [Ordering.then] at h
        | eq =>
          rw [hxy] at h
          simp only [Ordering.then] at h
          have h1 : x = y := Nat.compare_eq_eq.mp hxy
          have h2 : xs = ys := (ih ys).mp h
          rw [h1, h2]
      · intro h
        injection h with h1 h2
        subst h1
        subst h2
        rw [Nat.compare_eq_eq.mpr rfl]
        simpa [Ordering.then] using (ih xs).mpr rfl

theorem cmpNatList_lt_trans {a b c : List Nat}
    (h1 : cmpNatList a b = .lt) (h2 : cmpNatList b c = .lt) :
    cmpNatList a c = .lt := by
  induction a generalizing b c with
  | nil =>
    cases b with
    | nil => simp [cmpNatList] at h1
    | cons y ys => cases c <;> simp_all [cmpNatList]
  | cons x xs ih =>
    cases b with
    | nil => simp [cmpNatList] at h1
    | cons y ys =>
      cases c with
      | nil => simp [cmpNatList] at h2
      | cons z zs =>
        simp only [cmpNatList] at h1 h2 ⊢
        cases hxy : compare x y with
        | gt => rw [hxy] at h1; simp [Ordering.then] at h1
        | lt =>
          have hyz : y ≤ z := by
            cases hc : compare y z with
            | lt => exact le_of_lt (Nat.compare_eq_lt.mp hc)
            | eq => exact le_of_eq (Nat.compare_eq_eq.mp hc)
            | gt => rw [hc] at h2; simp [Ordering.then] at h2
          have : compare x z = .lt :=
            Nat.compare_eq_lt.mpr (lt_of_lt_of_le (Nat.compare_eq_lt.mp hxy) hyz)
          rw [this]; rfl
        | eq =>
          have hxy' : x = y := Nat.compare_eq_eq.mp hxy
          rw [hxy] at h1
          simp only [Ordering.then] at h1
          cases hyz : compare y z with
          | gt => rw [hyz] at h2; simp [Ordering.then] at h2
          | lt =>
            have : compare x z = .lt := by rw [hxy']; exact hyz
            rw [this]; rfl
          | eq =>
            have hyz' : y = z := Nat.compare_eq_eq.mp hyz
            rw [hyz] at h2
            simp only [Ordering.then] at h2
            have : compare x z = .eq := by rw [hxy', hyz']; exact Nat.compare_eq_eq.mpr rfl
            rw [this]
            simpa [Ordering.then] using ih h1 h2

theorem cmpNatList_le_trans {a b c : List Nat}
    (h1 : cmpNatList a b ≠ .gt) (h2 : cmpNatList b c ≠ .gt) :
    cmpNatList a c ≠ .gt := by
  cases hab : cmpNatList a b with
  | gt => exact absurd hab h1
  | eq => rw [(cmpNatList_eq_iff a b).mp hab]; exact h2
  | lt =>
    cases hbc : cmpNatList b c with
    | gt => exact absurd hbc h2
    | eq => rw [← (cmpNatList_eq_iff b c).mp hbc]; rw [hab]; simp
    | lt => rw [cmpNatList_lt_trans hab hbc]; simp

/-- A single code point is recovered from its lowercase form and its case
weight. -/
theorem lowerN_upperFlag_inj {x y : Nat}
    (h1 : lowerN x = lowerN y) (h2 : upperFlag x = upperFlag y) : x = y := by
  unfold lowerN upperFlag at *
  by_cases hx : 65 ≤ x ∧ x ≤ 90 <;> by_cases hy : 65 ≤ y ∧ y ≤ 90 <;>
    simp [hx, hy] at h1 h2 <;> omega

theorem codes_inj {s t : String} (h : codes s = codes t) : s = t := by
  unfold codes at h
  have : s.toList = t.toList := by
    have hinj : Function.Injective Char.toNat := by
      intro a b hab
      unfold Char.toNat at hab
      exact Char.ext (UInt32.toNat.inj hab)
    exact List.map_injective_iff.mpr hinj h
  exact String.ext this

/-- `localeCompare` returning `eq` forces string equality (on ASCII
strings no two distinct strings collate equal in this model). -/
theorem jsLocaleCompare_eq_iff (s t : String) :
    jsLocaleCompare s t = .eq ↔ s = t := by
  constructor
  · intro h
    unfold jsLocaleCompare at h
    cases hp : cmpNatList (lowerCodes s) (lowerCodes t) with
    | lt => rw [hp] at h; simp [Ordering.then] at h
    | gt => rw [hp] at h; simp [Ordering.then] at h
    | eq =>
      rw [hp] at h
      simp only [Ordering.then] at h
      have hlow : lowerCodes s = lowerCodes t := (cmpNatList_eq_iff _ _).mp hp
      have hcase : caseCodes s = caseCodes t := (cmpNatList_eq_iff _ _).mp h
      refine codes_inj ?_
      unfold lowerCodes at hlow
      unfold caseCodes at hcase
      have hlen : (codes s).length = (codes t).length := by
        have := congrArg List.length hlow
        simpa using this
      clear hp h
      revert hlow hcase hlen
      generalize codes s = a
      generalize codes t = b
      intro hlow hcase hlen
      induction a generalizing b with
      | nil => cases b <;> simp_all
      | cons x xs ih =>
        cases b with
        | nil => simp at hlen
        | cons y ys =>
          simp only [List.map_cons, List.cons.injEq] at hlow hcase
          have hhead : x = y := lowerN_upperFlag_inj hlow.1 hcase.1
          have htail : xs = ys := ih ys hlow.2 hcase.2 (by simpa using hlen)
          rw [hhead, htail]
  · intro h
    subst h
    unfold jsLocaleCompare
    rw [(cmpNatList_eq_iff _ _).mpr rfl, (cmpNatList_eq_iff _ _).mpr rfl]
    rfl

theorem jsLocaleCompare_swap (s t : String) :
    jsLocaleCompare t s = (jsLocaleCompare s t).swap := by
  unfold jsLocaleCompare
  rw [cmpNatList_swap (lowerCodes s), cmpNatList_swap (caseCodes s)]
  cases cmpNatList (lowerCodes s) (lowerCodes t) <;>
    cases cmpNatList (caseCodes s) (caseCodes t) <;> rfl

/-- The comparator predicate is total. -/
theorem localeLe_total (x y : String) (h : localeLe x y = false) :
    localeLe y x = true := by
  unfold localeLe at *
  rw [jsLocaleCompare_swap]
  simp only [ne_eq, Bool.not_eq_true] at h
  have : jsLocaleCompare x y = .gt := by
    by_contra hc
    simp [hc] at h
  rw [this]
  rfl

/-- The comparator predicate is transitive. -/
theorem localeLe_trans {x y z : String}
    (h1 : localeLe x y = true) (h2 : localeLe y z = true) :
    localeLe x z = true := by
  unfold localeLe jsLocaleCompare at *
  simp only [ne_eq, decide_eq_true_eq] at h1 h2 ⊢
  cases hp1 : cmpNatList (lowerCodes x) (lowerCodes y) with
  | gt => rw [hp1] at h1; simp [Ordering.then] at h1
  | lt =>
    cases hp2 : cmpNatList (lowerCodes y) (lowerCodes z) with
    | gt => rw [hp2] at h2; simp [Ordering.then] at h2
    | lt =>
      rw [cmpNatList_lt_trans hp1 hp2]
      simp [Ordering.then]
    | eq =>
      rw [← (cmpNatList_eq_iff _ _).mp hp2, hp1]
      simp [Ordering.then]
  | eq =>
    have hxy : lowerCodes x = lowerCodes y := (cmpNatList_eq_iff _ _).mp hp1
    rw [hp1] at h1
    simp only [Ordering.then] at h1
    cases hp2 : cmpNatList (lowerCodes y) (lowerCodes z) with
    | gt => rw [hp2] at h2; simp [Ordering.then] at h2
    | lt =>
      rw [hxy, hp2]
      simp [Ordering.then]
    | eq =>
      rw [hp2] at h2
      simp only [Ordering.then] at h2
      rw [hxy, hp2]
      simp only [Ordering.then]
      intro hc
      exact absurd hc (by
        have := cmpNatList_le_trans (a := caseCodes x) (b := caseCodes y)
          (c := caseCodes z) (by simp [h1]) (by simp [h2])
        simp_all)

/-! ## Uniqueness of stable sorting under a total transitive comparator -/

theorem chainLeBy_head_le {le : α → α → Bool}
    (trans : ∀ x y z, le x y = true → le y z = true → le x z = true)
    {a : α} {l : List α} (h : chainLeBy le (a :: l) = true) :
    ∀ x ∈ l, le a x = true := by
  induction l generalizing a with
  | nil => intro x hx; cases hx
  | cons b t ih =>
    rw [chainLeBy_cons] at h
    have hab : le a b = true := by
      cases hx : le a b <;> simp [hx] at h ⊢
    have htail : chainLeBy le (b :: t) = true := by
      cases hx : chainLeBy le (b :: t) <;> simp [hx] at h ⊢
    intro x hx
    rcases List.mem_cons.mp hx with rfl | hx'
    · exact hab
    · exact trans a b x hab (ih htail x hx')

theorem chainLeBy_tail {le : α → α → Bool} {a : α} {l : List α}
    (h : chainLeBy le (a :: l) = true) : chainLeBy le l = true := by
  cases l with
  | nil => rfl
  | cons b t =>
    rw [chainLeBy_cons] at h
    cases hx : chainLeBy le (b :: t) <;> simp [hx] at h ⊢

/-- Two sorted lists that are permutations of each other are equal,
provided the comparator is transitive and antisymmetric on the elements
involved. -/
theorem sorted_perm_unique {le : α → α → Bool}
    (trans : ∀ x y z, le x y = true → le y z = true → le x z = true) :
    ∀ (l₁ l₂ : List α), l₁.Perm l₂ →
      chainLeBy le l₁ = true → chainLeBy le l₂ = true →
      (∀ x ∈ l₁, ∀ y ∈ l₁, le x y = true → le y x = true → x = y) →
      l₁ = l₂ := by
  intro l₁
  induction l₁ with
  | nil =>
    intro l₂ p _ _ _
    exact (p.nil_eq).symm ▸ rfl
  | cons a t₁ ih =>
    intro l₂ p s₁ s₂ anti
    cases l₂ with
    | nil => exact absurd p.symm (by simp)
    | cons b t₂ =>
      have hab : a = b := by
        have hb_mem : b ∈ a :: t₁ := p.mem_iff.mpr (List.mem_cons_self b t₂)
        have ha_mem : a ∈ b :: t₂ := p.mem_iff.mp (List.mem_cons_self a t₁)
        rcases List.mem_cons.mp hb_mem with hb | hb
        · exact hb.symm
        rcases List.mem_cons.mp ha_mem with ha | ha
        · exact ha
        have h1 : le a b = true := chainLeBy_head_le trans s₁ b hb
        have h2 : le b a = true := by
          have hba := chainLeBy_head_le trans s₂ a ha
          exact hba
        exact anti a (List.mem_cons_self a t₁) b (List.mem_cons.mpr (Or.inr hb)) h1 h2
      subst hab
      have ptail : t₁.Perm t₂ := p.cons_inv
      have : t₁ = t₂ := by
        refine ih t₂ ptail (chainLeBy_tail s₁) (chainLeBy_tail s₂) ?_
        intro x hx y hy
        exact anti x (List.mem_cons.mpr (Or.inr hx)) y (List.mem_cons.mpr (Or.inr hy))
      rw [this]

/-! ## The canonical-form predicate for claim C1 -/

/-- A value is in locale-canonical form when every object in it has no
`undefined`-valued entries and keys in ascending `localeCompare` order
(arrays are checked element-wise; array elements may be any canonical
value, including `undefined`, since `normalizeValue` only removes
`undefined` *fields*). -/
def canonLocaleB : JsValue → Bool
  | .undef => true
  | .null => true
  | .bool _ => true
  | .num _ => true
  | .str _ => true
  | .arr items => items.attach.all fun x => canonLocaleB x.1
  | .obj entries =>
    (entries.attach.all fun x => !x.1.2.isUndef && canonLocaleB x.1.2) &&
      chainLeBy localeLe (entries.map fun e => e.1)
termination_by v => sizeOf v
decreasing_by
  all_goals simp_wf
  · rename_i items
    have h1 : sizeOf x.1 < sizeOf items := List.sizeOf_lt_of_mem x.2
    omega
  · rename_i entries
    have h1 : sizeOf x.1 < sizeOf entries := List.sizeOf_lt_of_mem x.2
    have h2 : sizeOf x.1.2 < sizeOf x.1 := by
      obtain ⟨k, v⟩ := x.1
      simp only [Prod.mk.sizeOf_spec]
      omega
    omega

theorem attach_all {l : List α} (g : α → Bool) :
    (l.attach.all fun x => g x.1) = l.all g := by
  have h : ((l.attach.all fun x => g x.1) = true) ↔ (l.all g = true) := by
    simp only [List.all_eq_true]
    constructor
    · intro h a ha
      exact h ⟨a, ha⟩ (List.mem_attach l ⟨a, ha⟩)
    · intro h x hx
      exact h x.1 x.2
  exact Bool.coe_iff_coe.mp (by simp [h])

theorem canonLocaleB_arr (items : List JsValue) :
    canonLocaleB (.arr items) = items.all canonLocaleB := by
  rw [canonLocaleB]
  exact attach_all canonLocaleB

theorem canonLocaleB_obj (entries : List (String × JsValue)) :
    canonLocaleB (.obj entries) =
      ((entries.all fun e => !e.2.isUndef && canonLocaleB e.2) &&
        chainLeBy localeLe (entries.map fun e => e.1)) := by
  rw [canonLocaleB]
  rw [attach_all fun e : String × JsValue => !e.2.isUndef && canonLocaleB e.2]

/-- `normalizeValue` maps each constructor to the same constructor, so it
preserves (non-)`undefined`-ness. -/
theorem isUndef_normalizeValue (v : JsValue) :
    (normalizeValue v).isUndef = v.isUndef := by
  cases v with
  | undef => simp [normalizeValue, JsValue.isUndef]
  | null => simp [normalizeValue, JsValue.isUndef]
  | bool b => simp [normalizeValue, JsValue.isUndef]
  | num n => simp [normalizeValue, JsValue.isUndef]
  | str s => simp [normalizeValue, JsValue.isUndef]
  | arr items => rw [normalizeValue_arr]; rfl
  | obj entries => rw [normalizeValue_obj]; rfl

/-- Adjacent sortedness transfers along the projection used to compare. -/
theorem chainLeBy_map (le : β → β → Bool) (f : α → β) :
    ∀ l : List α, chainLeBy (fun p q => le (f p) (f q)) l =
      chainLeBy le (l.map f)
  | [] => rfl
  | [_] => rfl
  | a :: b :: l => by
    rw [List.map_cons, List.map_cons, chainLeBy_cons, chainLeBy_cons,
      ← List.map_cons, chainLeBy_map le f (b :: l)]

/-- Core of claim C1: `normalizeValue` always lands in locale-canonical
form. -/
theorem canonLocaleB_normalizeValue (v : JsValue) :
    canonLocaleB (normalizeValue v) = true := by
  induction v using normalizeValue.induct with
  | case1 => simp [normalizeValue, canonLocaleB]
  | case2 => simp [normalizeValue, canonLocaleB]
  | case3 b => simp [normalizeValue, canonLocaleB]
  | case4 n => simp [normalizeValue, canonLocaleB]
  | case5 s => simp [normalizeValue, canonLocaleB]
  | case6 items ih =>
    rw [normalizeValue_arr, canonLocaleB_arr, List.all_eq_true]
    intro y hy
    rcases List.mem_map.mp hy with ⟨a, ha, rfl⟩
    exact ih ⟨a, ha⟩
  | case7 entries kept sorted ih =>
    rw [normalizeValue_obj, canonLocaleB_obj]
    refine Bool.and_eq_true_iff.mpr ⟨?_, ?_⟩
    · rw [List.all_eq_true]
      intro y hy
      rcases List.mem_map.mp hy with ⟨e, he, rfl⟩
      refine Bool.and_eq_true_iff.mpr ⟨?_, ih ⟨e, he⟩⟩
      have he' : e ∈ entries.filter fun e => !e.2.isUndef := mem_insertionSortBy.mp he
      have hu : (!e.2.isUndef) = true := (List.mem_filter.mp he').2
      rw [isUndef_normalizeValue]
      simpa using hu
    · have hkeys : (List.map (fun e => e.1)
          ((insertionSortBy (fun p q => localeLe p.1 q.1)
            (entries.filter fun e => !e.2.isUndef)).map
              fun e => (e.1, normalizeValue e.2)))
          = (insertionSortBy (fun p q => localeLe p.1 q.1)
              (entries.filter fun e => !e.2.isUndef)).map fun e => e.1 := by
        rw [List.map_map]
        rfl
      rw [hkeys, ← chainLeBy_map localeLe (fun e : String × JsValue => e.1)]
      exact insertionSortBy_chain
        (fun x y h => localeLe_total x.1 y.1 h) _

/-- Unfolding `jsonStringify` on arrays. -/
theorem jsonStringify_arr (items : List JsValue) :
    jsonStringify (.arr items) =
      some ("[" ++ String.intercalate ","
        (items.map fun v => (jsonStringify v).getD "null") ++ "]") := by
  rw [jsonStringify]
  rw [attach_map_fst fun v : JsValue => (jsonStringify v).getD "null"]

/-- Unfolding `jsonStringify` on objects. -/
theorem jsonStringify_obj (entries : List (String × JsValue)) :
    jsonStringify (.obj entries) =
      some ("\x7b" ++ String.intercalate ","
        ((entries.map fun e =>
            (jsonStringify e.2).map fun body => quoteJson e.1 ++ ":" ++ body).reduceOption)
        ++ "\x7d") := by
  rw [jsonStringify]
  rw [attach_map_fst fun e : String × JsValue =>
    (jsonStringify e.2).map fun body => quoteJson e.1 ++ ":" ++ body]

/-! ## Claim C1 -/

/-- C1 (amended): `stableStringify` serializes `normalizeValue`'s output
with the builtin compact `JSON.stringify`; `normalizeValue` recursively
drops `undefined` fields, recursively sorts object keys ascending by the
`localeCompare` comparator (every object of the output has its keys in
ascending `localeCompare` order), and preserves array element order
(arrays map to the element-wise normalization, in the given order). -/
theorem normalizeValue_canonical_locale :
    (∀ v : JsValue, canonLocaleB (normalizeValue v) = true) ∧
    (∀ v : JsValue, stableStringify v = jsonStringify (normalizeValue v)) ∧
    (∀ items : List JsValue,
      normalizeValue (.arr items) = .arr (items.map normalizeValue)) :=
  ⟨canonLocaleB_normalizeValue, fun _ => rfl, normalizeValue_arr⟩

/-- C1 (counterexample to the claim as stated): on the object
`{"B": 1, "a": 2}` the code sorts the keys to `["a", "B"]` (because
`"a".localeCompare("B") < 0`), which is *not* ascending code-point order —
code-point order would put `"B"` (0x42) before `"a"` (0x61).  The
serialized output is `{"a":2,"B":1}`. -/
theorem normalizeValue_keys_not_codepoint_cex :
    normalizeValue (.obj [("B", .num 1), ("a", .num 2)])
      = .obj [("a", .num 2), ("B", .num 1)] ∧
    chainLeBy cpLeString ["a", "B"] = false ∧
    chainLeBy cpLeString ["B", "a"] = true ∧
    stableStringify (.obj [("B", .num 1), ("a", .num 2)])
      = some "\x7b\"a\":2,\"B\":1\x7d" := by
  have hnorm : normalizeValue (.obj [("B", .num 1), ("a", .num 2)])
      = .obj [("a", .num 2), ("B", .num 1)] := by
    rw [normalizeValue_obj]
    have hs : insertionSortBy (fun p q : String × JsValue => localeLe p.1 q.1)
        (([("B", JsValue.num 1), ("a", JsValue.num 2)] :
            List (String × JsValue)).filter fun e => !e.2.isUndef)
        = [("a", JsValue.num 2), ("B", JsValue.num 1)] := by rfl
    rw [hs, List.map_cons, List.map_cons, List.map_nil]
    simp only [normalizeValue]
  refine ⟨hnorm, by decide, by decide, ?_⟩
  show jsonStringify (normalizeValue (.obj [("B", .num 1), ("a", .num 2)])) = _
  rw [hnorm, jsonStringify_obj, List.map_cons, List.map_cons, List.map_nil]
  simp only [jsonStringify]
  rfl

/-! ## Claim C3 -/

/-- C3: the API's `stableStringify` (`apps/api/src/proofs.ts`, used for
Merkle leaf hashing and signature verification) and the web application's
`stableStringify` (used for wallet signing) are textually identical and
produce identical output strings for every input value. -/
theorem stableStringify_api_eq_web :
    ∀ v : JsValue, stableStringify v = webStableStringify v := by
  intro v
  unfold stableStringify webStableStringify
  rw [normalizeValue_eq_webNormalizeValue]

/-! ## The audit data model (`@verisec/schema`) -/

inductive Severity where
  | info | low | medium | high | critical
deriving DecidableEq, Repr

/-- The wire string of a severity. -/
def Severity.toStr : Severity → String
  | .info => "info"
  | .low => "low"
  | .medium => "medium"
  | .high => "high"
  | .critical => "critical"

inductive FindingStatus where
  | open_ | mitigated | resolved | accepted
deriving DecidableEq, Repr

/-- The wire string of a finding status. -/
def FindingStatus.toStr : FindingStatus → String
  | .open_ => "open"
  | .mitigated => "mitigated"
  | .resolved => "resolved"
  | .accepted => "accepted"

structure CodeReference where
  path : String
  lineStart : Option Int
  lineEnd : Option Int
  commit : Option String
deriving DecidableEq, Repr

structure Finding where
  id : String
  title : String
  severity : Severity
  status : FindingStatus
  description : Option String
  category : Option String
  cwe : Option (List String)
  affectedContracts : Option (List String)
  affectedAddresses : Option (List String)
  codeReferences : Option (List CodeReference)
  recommendation : Option String
  remediation : Option String
  createdAt : Option String
  updatedAt : Option String
  tags : Option (List String)
deriving DecidableEq, Repr

structure Auditor where
  name : String
  website : Option String
  publicKey : Option String
  identity : Option String
deriving DecidableEq, Repr

structure ProjectMetadata where
  name : String
  slug : Option String
  repository : Option String
  version : Option String
  contractAddresses : Option (List String)
deriving DecidableEq, Repr

inductive SigScheme where
  | eip191 | eip712 | pgp | other
deriving DecidableEq, Repr

/-- The wire string of a signature scheme. -/
def SigScheme.toStr : SigScheme → String
  | .eip191 => "eip191"
  | .eip712 => "eip712"
  | .pgp => "pgp"
  | .other => "other"

structure Signature where
  signer : String
  signature : String
  scheme : SigScheme
  signedAt : Option String
deriving DecidableEq, Repr

structure Artifacts where
  ipfsCid : Option String
  reportUrl : Option String
deriving DecidableEq, Repr

/-- `AuditReport` from the schema package.  `metadata` is an open
string-keyed bag of JSON values. -/
structure AuditReport where
  schemaVersion : String
  auditId : String
  project : ProjectMetadata
  auditor : Auditor
  reportDate : String
  commit : Option String
  network : Option String
  artifacts : Option Artifacts
  findings : List Finding
  signatures : Option (List Signature)
  metadata : Option (List (String × JsValue))
deriving Repr

/-! ### Encoding the model as JavaScript values

An absent optional field of a parsed JSON object and a field holding
`undefined` are indistinguishable to `normalizeValue` (both are removed),
so optional fields encode to `undefined` when absent. -/

/-- Encode an optional string. -/
def optStr : Option String → JsValue
  | none => .undef
  | some s => .str s

/-- Encode an optional string list. -/
def optStrList : Option (List String) → JsValue
  | none => .undef
  | some l => .arr (l.map JsValue.str)

/-- Encode an optional integer. -/
def optNum : Option Int → JsValue
  | none => .undef
  | some n => .num n

/-- The JavaScript object of a code reference. -/
def codeReferenceToJs (r : CodeReference) : JsValue :=
  .obj [("path", .str r.path), ("lineStart", optNum r.lineStart),
        ("lineEnd", optNum r.lineEnd), ("commit", optStr r.commit)]

/-- The JavaScript object of a finding, with the schema's field set. -/
def findingToJs (f : Finding) : JsValue :=
  .obj [("id", .str f.id),
        ("title", .str f.title),
        ("severity", .str f.severity.toStr),
        ("status", .str f.status.toStr),
        ("description", optStr f.description),
        ("category", optStr f.category),
        ("cwe", optStrList f.cwe),
        ("affectedContracts", optStrList f.affectedContracts),
        ("affectedAddresses", optStrList f.affectedAddresses),
        ("codeReferences",
          match f.codeReferences with
          | none => .undef
          | some rs => .arr (rs.map codeReferenceToJs)),
        ("recommendation", optStr f.recommendation),
        ("remediation", optStr f.remediation),
        ("createdAt", optStr f.createdAt),
        ("updatedAt", optStr f.updatedAt),
        ("tags", optStrList f.tags)]

/-- The JavaScript object of the project metadata. -/
def projectToJs (p : ProjectMetadata) : JsValue :=
  .obj [("name", .str p.name), ("slug", optStr p.slug),
        ("repository", optStr p.repository), ("version", optStr p.version),
        ("contractAddresses", optStrList p.contractAddresses)]

/-- The JavaScript object of the auditor attestation. -/
def auditorToJs (a : Auditor) : JsValue :=
  .obj [("name", .str a.name), ("website", optStr a.website),
        ("publicKey", optStr a.publicKey), ("identity", optStr a.identity)]

/-- The JavaScript object of the artifacts block. -/
def artifactsToJs : Option Artifacts → JsValue
  | none => .undef
  | some a => .obj [("ipfsCid", optStr a.ipfsCid), ("reportUrl", optStr a.reportUrl)]

/-- The unsigned audit: `const { signatures, ...unsignedAudit } = audit`
removes the `signatures` key before canonicalization. -/
def auditUnsignedJs (a : AuditReport) : JsValue :=
  .obj [("schemaVersion", .str a.schemaVersion),
        ("auditId", .str a.auditId),
        ("project", projectToJs a.project),
        ("auditor", auditorToJs a.auditor),
        ("reportDate", .str a.reportDate),
        ("commit", optStr a.commit),
        ("network", optStr a.network),
        ("artifacts", artifactsToJs a.artifacts),
        ("findings", .arr (a.findings.map findingToJs)),
        ("metadata",
          match a.metadata with
          | none => .undef
          | some m => .obj m)]

/-- `canonicalAuditMessage` from the schema package (re-implemented
verbatim in the web audit library): the stable serialization of the audit
with the `signatures` field stripped.  The argument of `JSON.stringify` is
an object, so the result is always a string; `getD` only discharges the
`Option`. -/
def canonicalAuditMessage (a : AuditReport) : String :=
  (webStableStringify (auditUnsignedJs a)).getD ""

/-! ## The Merkle proof engine (`apps/api/src/proofs.ts`)

Keccak-256 is the library primitive `keccak256`; the engine is
parameterised by it (`keccak : List Nat → List Nat` over byte values), and
every theorem below holds for an arbitrary hash function. -/

/-- UTF-8 encoding of a string as a byte list (`new TextEncoder().encode`). -/
def utf8Bytes (s : String) : List Nat :=
  s.toUTF8.toList.map fun b => b.toNat

/-- The two lowercase hex character codes of one byte (`toHex` encodes
byte-wise; the `% 16` keeps the definition total on arbitrary `Nat`s —
for genuine bytes it is the identity on both digits). -/
def byteHexCodes (b : Nat) : List Nat :=
  [hexDigitCode (b / 16 % 16), hexDigitCode (b % 16)]

/-- Lowercase hex encoding of a byte list (`toHex` from
`ethereum-cryptography/utils`, without the `0x` prefix). -/
def toHex (bytes : List Nat) : String :=
  String.mk ((bytes.flatMap byteHexCodes).map Char.ofNat)

/-- The numeric value of a hex digit character code (`hexToBytes` accepts
both cases; other codes cannot occur on the call sites, which only pass
`toHex` output). -/
def hexVal (c : Nat) : Nat :=
  if 48 ≤ c ∧ c ≤ 57 then c - 48
  else if 97 ≤ c ∧ c ≤ 102 then c - 87
  else if 65 ≤ c ∧ c ≤ 70 then c - 55
  else 0

/-- Decode pairs of hex character codes into bytes.  The call sites only
pass even-length strings of hex digits (the library throws otherwise). -/
def hexPairBytes : List Nat → List Nat
  | [] => []
  | [_] => []
  | c1 :: c2 :: rest => (hexVal c1 * 16 + hexVal c2) :: hexPairBytes rest

/-- `hexToBytes` from `ethereum-cryptography/utils` on the embedded
strings. -/
def hexToBytes (s : String) : List Nat :=
  hexPairBytes (codes s)

/-- `stripHexPrefix` from `apps/api/src/proofs.ts` (renamed: drops a
leading `"0x"`). -/
def strip0x (s : String) : String :=
  if s.startsWith "0x" then s.drop 2 else s

/-- `sortHex`: order two hex strings by comparing their lowercased forms
with JavaScript's `<=` (code-point comparison), returning the original
strings. -/
def sortHex (a b : String) : String × String :=
  if cmpNatList ((codes a).map lowerN) ((codes b).map lowerN) ≠ .gt
  then (a, b) else (b, a)

/-- `hashPair`: the sorted-pair parent hash — concatenate the raw bytes of
the two hex strings in `sortHex` order and Keccak-hash them. -/
def hashPair (keccak : List Nat → List Nat) (a b : String) : String :=
  let p := sortHex a b
  "0x" ++ toHex (keccak (hexToBytes (strip0x p.1) ++ hexToBytes (strip0x p.2)))

/-- `hashFinding`: Keccak over the UTF-8 bytes of the finding's stable
serialization, hex-encoded with a `0x` prefix.  (`stableStringify` of an
object is always `some`; `getD` only discharges the `Option`.) -/
def hashFinding (keccak : List Nat → List Nat) (f : Finding) : String :=
  "0x" ++ toHex (keccak (utf8Bytes ((stableStringify (findingToJs f)).getD "")))

/-- The findings sorted ascending by `id` with
`sort((a, b) => a.id.localeCompare(b.id))` — the canonical leaf order,
shared by `computeMerkleRoot` and `buildProofForFinding`. -/
def orderedFindings (a : AuditReport) : List Finding :=
  insertionSortBy (fun f g => localeLe f.id g.id) a.findings

/-- One `while`-loop step of `buildMerkleTree`: hash consecutive pairs,
duplicating a trailing odd element (`current[i + 1] ?? current[i]`). -/
def nextLayer (keccak : List Nat → List Nat) : List String → List String
  | [] => []
  | [a] => [hashPair keccak a a]
  | a :: b :: rest => hashPair keccak a b :: nextLayer keccak rest

theorem nextLayer_length (keccak : List Nat → List Nat) :
    ∀ l : List String, (nextLayer keccak l).length = (l.length + 1) / 2
  | [] => rfl
  | [_] => by simp [nextLayer]
  | _ :: _ :: rest => by
    simp only [nextLayer, List.length_cons]
    rw [nextLayer_length keccak rest]
    omega

/-- The layer stack of `buildMerkleTree`: the leaf layer followed by
successive `nextLayer`s until a single hash remains. -/
def buildLayers (keccak : List Nat → List Nat) (l : List String) :
    List (List String) :=
  if l.length ≤ 1 then [l]
  else l :: buildLayers keccak (nextLayer keccak l)
termination_by l.length
decreasing_by
  rename_i h
  rw [nextLayer_length]
  omega

structure MerkleTree where
  root : String
  layers : List (List String)
deriving DecidableEq, Repr

/-- `buildMerkleTree`: an error on zero leaves (the source throws
`"cannot build merkle tree with zero leaves"`), otherwise the layer stack
plus the single hash of the last layer as root. -/
def buildMerkleTree (keccak : List Nat → List Nat) (leaves : List String) :
    Except String MerkleTree :=
  if leaves.isEmpty then .error "cannot build merkle tree with zero leaves"
  else
    let layers := buildLayers keccak leaves
    .ok { root := (layers.getLastD []).headD "", layers := layers }

/-- `computeMerkleRoot`: leaves are the hashes of the findings in
canonical order; the root propagates the zero-leaf error for an audit
without findings. -/
def computeMerkleRoot (keccak : List Nat → List Nat) (a : AuditReport) :
    Except String String :=
  ((buildMerkleTree keccak ((orderedFindings a).map (hashFinding keccak))).map
    fun t => t.root)

/-- The sibling pushed at one layer of `buildProof`:
`layer[pairIndex] ?? layer[index]` (the fallback duplicates the node
itself; `index` is in bounds at every call site, so the final `""` default
is unreachable). -/
def proofSibling (layer : List String) (index : Nat) : String :=
  let pairIndex := if index % 2 = 1 then index - 1 else index + 1
  ((layer.get? pairIndex).orElse fun _ => layer.get? index).getD ""

/-- `buildProof`: walk every layer except the last, emitting the sibling
of the current index and halving the index. -/
def buildProof : List (List String) → Nat → List String
  | [], _ => []
  | [_], _ => []
  | layer :: rest, index => proofSibling layer index :: buildProof rest (index / 2)

/-- The fixed canonicalization descriptor of a `ProofResult`. -/
structure CanonDescriptor where
  sort : String
  leafEncoding : String
  hash : String
  pairHashing : String
  oddLeaf : String
deriving DecidableEq, Repr

/-- The descriptor constant reported by `buildProofForFinding`. -/
def canonDescriptor : CanonDescriptor :=
  { sort := "finding.id:asc", leafEncoding := "utf8-json", hash := "keccak256",
    pairHashing := "sorted", oddLeaf := "duplicate" }

structure ProofResult where
  auditId : String
  findingId : String
  leaf : String
  root : String
  proof : List String
  leafIndex : Nat
  totalLeaves : Nat
  canonicalization : CanonDescriptor
deriving DecidableEq, Repr

/-- `buildProofForFinding`: sort, hash, locate the finding (`findIndex`
returning `-1` maps to `none` — the "finding not found" signal); only then
build the tree and derive the proof.  The `Except` layer models the
JavaScript exception channel. -/
def buildProofForFinding (keccak : List Nat → List Nat) (a : AuditReport)
    (findingId : String) : Except String (Option ProofResult) :=
  let ordered := orderedFindings a
  let leaves := ordered.map (hashFinding keccak)
  match ordered.findIdx? fun f => f.id = findingId with
  | none => .ok none
  | some leafIndex =>
    (buildMerkleTree keccak leaves).map fun tree =>
      some { auditId := a.auditId
             findingId := findingId
             leaf := (leaves.get? leafIndex).getD ""
             root := tree.root
             proof := buildProof tree.layers leafIndex
             leafIndex := leafIndex
             totalLeaves := leaves.length
             canonicalization := canonDescriptor }

/-! ### Hashes are lowercase hex, and `hashPair` is symmetric

`sortHex` lowercases before comparing but concatenates the *original*
strings; on the engine's own hashes (always lowercase `0x…` hex) the pair
it returns is therefore independent of argument order, which makes
`hashPair` symmetric — the "sorted pair" rule of the specification. -/

/-- A string all of whose code points are fixed by ASCII lowercasing. -/
def IsLowerStr (s : String) : Prop :=
  (codes s).map lowerN = codes s

theorem hexDigitCode_lower : ∀ m < 16,
    lowerN (hexDigitCode m) = hexDigitCode m ∧
    (Char.ofNat (hexDigitCode m)).toNat = hexDigitCode m := by decide

theorem codes_string_mk (l : List Char) :
    codes (String.mk l) = l.map Char.toNat := rfl

theorem codes_append (a b : String) :
    codes (a ++ b) = codes a ++ codes b := by
  unfold codes
  have h : (a ++ b).toList = a.toList ++ b.toList := rfl
  rw [h]
  exact List.map_append _ _ _

theorem mem_byteHexCodes {x b : Nat} (h : x ∈ byteHexCodes b) :
    ∃ m, m < 16 ∧ x = hexDigitCode m := by
  unfold byteHexCodes at h
  simp only [List.mem_cons, List.mem_singleton, List.not_mem_nil, or_false] at h
  rcases h with h | h
  · exact ⟨b / 16 % 16, Nat.mod_lt _ (by omega), h⟩
  · exact ⟨b % 16, Nat.mod_lt _ (by omega), h⟩

theorem codes_toHex (bytes : List Nat) :
    codes (toHex bytes) = bytes.flatMap byteHexCodes := by
  unfold toHex
  rw [codes_string_mk, List.map_map]
  refine List.map_congr_left ?_ |>.trans (List.map_id _)
  intro x hx
  rcases List.mem_flatMap.mp hx with ⟨b, _, hxb⟩
  rcases mem_byteHexCodes hxb with ⟨m, hm, rfl⟩
  exact (hexDigitCode_lower m hm).2

theorem isLowerStr_0x_toHex (bytes : List Nat) :
    IsLowerStr ("0x" ++ toHex bytes) := by
  unfold IsLowerStr
  rw [codes_append, List.map_append, codes_toHex]
  refine congrArg₂ (· ++ ·) (by decide) ?_
  refine List.map_congr_left ?_ |>.trans (List.map_id _)
  intro x hx
  rcases List.mem_flatMap.mp hx with ⟨b, _, hxb⟩
  rcases mem_byteHexCodes hxb with ⟨m, hm, rfl⟩
  exact (hexDigitCode_lower m hm).1

theorem isLowerStr_hashFinding (keccak : List Nat → List Nat) (f : Finding) :
    IsLowerStr (hashFinding keccak f) :=
  isLowerStr_0x_toHex _

theorem isLowerStr_hashPair (keccak : List Nat → List Nat) (a b : String) :
    IsLowerStr (hashPair keccak a b) :=
  isLowerStr_0x_toHex _

theorem sortHex_symm {a b : String} (ha : IsLowerStr a) (hb : IsLowerStr b) :
    sortHex a b = sortHex b a := by
  unfold sortHex
  unfold IsLowerStr at ha hb
  rw [ha, hb]
  cases hab : cmpNatList (codes a) (codes b) with
  | eq =>
    have hq : a = b := codes_inj ((cmpNatList_eq_iff _ _).mp hab)
    rw [hq]
    simp
  | lt =>
    have hba : cmpNatList (codes b) (codes a) = .gt := by
      rw [cmpNatList_swap, hab]; rfl
    rw [hba]
    simp
  | gt =>
    have hba : cmpNatList (codes b) (codes a) = .lt := by
      rw [cmpNatList_swap, hab]; rfl
    rw [hba]
    simp

theorem hashPair_comm (keccak : List Nat → List Nat) {a b : String}
    (ha : IsLowerStr a) (hb : IsLowerStr b) :
    hashPair keccak a b = hashPair keccak b a := by
  unfold hashPair
  rw [sortHex_symm ha hb]

/-! ### Small trees, computed -/

theorem buildLayers_one (keccak : List Nat → List Nat) (a : String) :
    buildLayers keccak [a] = [[a]] := by
  rw [buildLayers]
  simp

theorem buildLayers_two (keccak : List Nat → List Nat) (a b : String) :
    buildLayers keccak [a, b] = [[a, b], [hashPair keccak a b]] := by
  rw [buildLayers]
  simp only [List.length_cons, List.length_nil]
  norm_num
  rw [show nextLayer keccak [a, b] = [hashPair keccak a b] from rfl,
    buildLayers_one]

theorem buildLayers_three (keccak : List Nat → List Nat) (a b c : String) :
    buildLayers keccak [a, b, c] =
      [[a, b, c], [hashPair keccak a b, hashPair keccak c c],
        [hashPair keccak (hashPair keccak a b) (hashPair keccak c c)]] := by
  rw [buildLayers]
  simp only [List.length_cons, List.length_nil]
  norm_num
  rw [show nextLayer keccak [a, b, c]
      = [hashPair keccak a b, hashPair keccak c c] from rfl,
    buildLayers_two]

theorem buildMerkleTree_one (keccak : List Nat → List Nat) (a : String) :
    buildMerkleTree keccak [a] = .ok { root := a, layers := [[a]] } := by
  unfold buildMerkleTree
  rw [buildLayers_one]
  rfl

theorem buildMerkleTree_two (keccak : List Nat → List Nat) (a b : String) :
    buildMerkleTree keccak [a, b] =
      .ok { root := hashPair keccak a b,
            layers := [[a, b], [hashPair keccak a b]] } := by
  unfold buildMerkleTree
  rw [buildLayers_two]
  rfl

theorem buildMerkleTree_three (keccak : List Nat → List Nat) (a b c : String) :
    buildMerkleTree keccak [a, b, c] =
      .ok { root := hashPair keccak (hashPair keccak a b) (hashPair keccak c c),
            layers := [[a, b, c], [hashPair keccak a b, hashPair keccak c c],
              [hashPair keccak (hashPair keccak a b) (hashPair keccak c c)]] } := by
  unfold buildMerkleTree
  rw [buildLayers_three]
  rfl

/-! ## Claim C8 -/

/-- C8: with exactly one finding the Merkle root is the leaf hash itself;
with exactly two findings it is `hashPair` of the two leaf hashes — the
hash of the leaves concatenated in lexicographically sorted order
(`hashPair` sorts internally, so the statement is independent of which
leaf the id sort puts first). -/
theorem merkle_root_one_two_findings (keccak : List Nat → List Nat)
    (f g : Finding) (a : AuditReport) :
    (a.findings = [f] → computeMerkleRoot keccak a = .ok (hashFinding keccak f)) ∧
    (a.findings = [f, g] → computeMerkleRoot keccak a =
      .ok (hashPair keccak (hashFinding keccak f) (hashFinding keccak g))) := by
  constructor
  · intro h
    unfold computeMerkleRoot orderedFindings
    rw [h]
    rw [show insertionSortBy (fun f g : Finding => localeLe f.id g.id) [f] = [f]
      from rfl]
    rw [List.map_cons, List.map_nil, buildMerkleTree_one]
    rfl
  · intro h
    unfold computeMerkleRoot orderedFindings
    rw [h]
    have hsort : insertionSortBy (fun f g : Finding => localeLe f.id g.id) [f, g]
        = if localeLe f.id g.id then [f, g] else [g, f] := by
      simp only [insertionSortBy, orderedInsertBy]
    rw [hsort]
    by_cases hle : localeLe f.id g.id = true
    · rw [if_pos hle, List.map_cons, List.map_cons, List.map_nil,
        buildMerkleTree_two]
      rfl
    · rw [if_neg (by simpa using hle), List.map_cons, List.map_cons,
        List.map_nil, buildMerkleTree_two]
      rw [hashPair_comm keccak (isLowerStr_hashFinding keccak g)
        (isLowerStr_hashFinding keccak f)]
      rfl

/-! ## Claim C9 -/

/-- C9: `buildProofForFinding` is total.  When the requested finding id
does not occur in the audit (in particular when the findings list is
empty) it returns the "finding not found" signal without building a tree,
and it never surfaces the zero-leaves error: the tree is only built after
a leaf index has been located, which forces the leaf list to be
non-empty. -/
theorem buildProofForFinding_total (keccak : List Nat → List Nat)
    (a : AuditReport) (findingId : String) :
    (findingId ∉ a.findings.map Finding.id →
      buildProofForFinding keccak a findingId = .ok none) ∧
    (∀ e, buildProofForFinding keccak a findingId ≠ .error e) := by
  constructor
  · intro hnot
    have hidx : (orderedFindings a).findIdx? (fun f => f.id = findingId)
        = none := by
      rw [List.findIdx?_eq_none_iff]
      intro f hf
      have : f ∈ a.findings := mem_insertionSortBy.mp hf
      have hne : f.id ≠ findingId := by
        intro hcontra
        exact hnot (hcontra ▸ List.mem_map_of_mem Finding.id this)
      simp [hne]
    unfold buildProofForFinding
    simp only [hidx]
  · intro e
    unfold buildProofForFinding
    cases hidx : (orderedFindings a).findIdx? (fun f => f.id = findingId) with
    | none => simp [hidx]
    | some i =>
      have hne : orderedFindings a ≠ [] := by
        intro hcontra
        rw [hcontra] at hidx
        simp [List.findIdx?] at hidx
      have hleaves : ((orderedFindings a).map (hashFinding keccak)).isEmpty
          = false := by
        cases horder : orderedFindings a with
        | nil => exact absurd horder hne
        | cons x xs => simp [horder]
      unfold buildMerkleTree
      simp only [hidx, hleaves]
      simp [Except.map]

/-! ## Claim C6 -/

/-- Two strings below each other under `localeCompare` in both directions
are equal. -/
theorem localeLe_antisymm {s t : String}
    (h1 : localeLe s t = true) (h2 : localeLe t s = true) : s = t := by
  unfold localeLe at h1 h2
  simp only [ne_eq, decide_eq_true_eq] at h1 h2
  rw [jsLocaleCompare_swap] at h2
  cases hc : jsLocaleCompare s t with
  | eq => exact (jsLocaleCompare_eq_iff s t).mp hc
  | gt => exact absurd hc h1
  | lt => rw [hc] at h2; exact absurd rfl h2

/-- The canonical leaf order is a function of the findings *multiset*:
permuted findings with pairwise-distinct ids sort identically. -/
theorem orderedFindings_perm_eq (a1 a2 : AuditReport)
    (hperm : a1.findings.Perm a2.findings)
    (hnodup : (a1.findings.map Finding.id).Nodup) :
    orderedFindings a1 = orderedFindings a2 := by
  have trans : ∀ x y z : Finding, localeLe x.id y.id = true →
      localeLe y.id z.id = true → localeLe x.id z.id = true :=
    fun x y z h1 h2 => localeLe_trans h1 h2
  refine @sorted_perm_unique Finding
    (fun f g => localeLe f.id g.id) trans _ _ ?_ ?_ ?_ ?_
  · exact ((insertionSortBy_perm _ a1.findings).trans hperm).trans
      (insertionSortBy_perm _ a2.findings).symm
  · exact insertionSortBy_chain (fun x y h => localeLe_total x.id y.id h) _
  · exact insertionSortBy_chain (fun x y h => localeLe_total x.id y.id h) _
  · intro x hx y hy h1 h2
    have hx' : x ∈ a1.findings := mem_insertionSortBy.mp hx
    have hy' : y ∈ a1.findings := mem_insertionSortBy.mp hy
    exact List.inj_on_of_nodup_map hnodup hx' hy' (localeLe_antisymm h1 h2)

/-- C6 (amended): for pairwise-distinct finding ids the Merkle leaf order
is the findings sorted ascending by `id` under the `localeCompare`
comparator (not plain code-point comparison): the sorted list is a
permutation of the submitted findings, adjacent ids are ascending under
`localeLe`, and consequently `computeMerkleRoot` returns the same root for
every permutation of the findings array. -/
theorem merkle_leaf_order_locale_perm_invariant
    (keccak : List Nat → List Nat) (a1 a2 : AuditReport)
    (hperm : a1.findings.Perm a2.findings)
    (hnodup : (a1.findings.map Finding.id).Nodup) :
    computeMerkleRoot keccak a1 = computeMerkleRoot keccak a2 ∧
    (orderedFindings a1).Perm a1.findings ∧
    chainLeBy localeLe ((orderedFindings a1).map Finding.id) = true := by
  refine ⟨?_, insertionSortBy_perm _ _, ?_⟩
  · unfold computeMerkleRoot
    rw [orderedFindings_perm_eq a1 a2 hperm hnodup]
  · unfold orderedFindings
    rw [← chainLeBy_map localeLe (fun f : Finding => f.id)]
    exact insertionSortBy_chain (fun x y h => localeLe_total x.id y.id h) _

/-- A minimal finding with the given id, used on concrete inputs. -/
def mkFinding (id : String) : Finding :=
  { id := id, title := "t", severity := .info, status := .open_,
    description := none, category := none, cwe := none,
    affectedContracts := none, affectedAddresses := none,
    codeReferences := none, recommendation := none, remediation := none,
    createdAt := none, updatedAt := none, tags := none }

/-- A minimal audit with the given findings, used on concrete inputs. -/
def mkAudit (findings : List Finding) : AuditReport :=
  { schemaVersion := "verisec.audit.v1", auditId := "audit-1",
    project := ⟨"proj", none, none, none, none⟩,
    auditor := ⟨"auditor", none, none, none⟩,
    reportDate := "2024-01-01", commit := none, network := none,
    artifacts := none, findings := findings, signatures := none,
    metadata := none }

/-- C6 (counterexample to the claim as stated): with finding ids `"B"` and
`"a"` the code's leaf order is `["a", "B"]` (by `localeCompare`), while
sorting by plain (code-point) string comparison gives `["B", "a"]`. -/
theorem merkle_leaf_order_not_plain_cex :
    (orderedFindings (mkAudit [mkFinding "B", mkFinding "a"])).map Finding.id
      = ["a", "B"] ∧
    (insertionSortBy (fun f g : Finding => cpLeString f.id g.id)
      [mkFinding "B", mkFinding "a"]).map Finding.id = ["B", "a"] ∧
    chainLeBy cpLeString ["a", "B"] = false := by
  exact ⟨rfl, rfl, by decide⟩

/-- Witness for the amended C6 on a concrete pair of audits that are
permutations of each other. -/
theorem merkle_leaf_order_locale_perm_invariant_witness :
    ([mkFinding "a", mkFinding "B"] : List Finding).Perm
        [mkFinding "B", mkFinding "a"] ∧
    ((([mkFinding "a", mkFinding "B"] : List Finding).map Finding.id).Nodup) ∧
    (computeMerkleRoot (fun _ => [0]) (mkAudit [mkFinding "a", mkFinding "B"])
        = computeMerkleRoot (fun _ => [0]) (mkAudit [mkFinding "B", mkFinding "a"]) ∧
      (orderedFindings (mkAudit [mkFinding "a", mkFinding "B"])).Perm
        (mkAudit [mkFinding "a", mkFinding "B"]).findings ∧
      chainLeBy localeLe ((orderedFindings
        (mkAudit [mkFinding "a", mkFinding "B"])).map Finding.id) = true) :=
  ⟨List.Perm.swap (mkFinding "B") (mkFinding "a") [],
   by decide,
   merkle_leaf_order_locale_perm_invariant (fun _ => [0])
     (mkAudit [mkFinding "a", mkFinding "B"])
     (mkAudit [mkFinding "B", mkFinding "a"])
     (List.Perm.swap (mkFinding "B") (mkFinding "a") [])
     (by decide)⟩

/-! ## Claim C7 -/

/-- The three-leaf proof lists, computed once for arbitrary leaves. -/
theorem buildProof_three (keccak : List Nat → List Nat) (a b c : String) :
    buildProof [[a, b, c],
        [hashPair keccak a b, hashPair keccak c c],
        [hashPair keccak (hashPair keccak a b) (hashPair keccak c c)]] 0
      = [b, hashPair keccak c c] ∧
    buildProof [[a, b, c],
        [hashPair keccak a b, hashPair keccak c c],
        [hashPair keccak (hashPair keccak a b) (hashPair keccak c c)]] 1
      = [a, hashPair keccak c c] ∧
    buildProof [[a, b, c],
        [hashPair keccak a b, hashPair keccak c c],
        [hashPair keccak (hashPair keccak a b) (hashPair keccak c c)]] 2
      = [c, hashPair keccak a b] :=
  ⟨rfl, rfl, rfl⟩

/-- C7: on an audit with exactly three findings with pairwise-distinct
ids, `buildProofForFinding` succeeds for each finding; the root it reports
equals `computeMerkleRoot` of the same audit; the proof array has length
2 = ⌈log2 3⌉; and folding the leaf through the proof's siblings with the
sorted-pair hash reproduces the root. -/
theorem three_finding_proof_roundtrip (keccak : List Nat → List Nat)
    (a : AuditReport) (f : Finding)
    (hlen : a.findings.length = 3)
    (hnodup : (a.findings.map Finding.id).Nodup)
    (hmem : f ∈ a.findings) :
    ∃ pr : ProofResult,
      buildProofForFinding keccak a f.id = .ok (some pr) ∧
      computeMerkleRoot keccak a = .ok pr.root ∧
      pr.proof.length = 2 ∧
      pr.proof.foldl (fun acc sib => hashPair keccak acc sib) pr.leaf
        = pr.root := by
  have hperm := insertionSortBy_perm
    (fun f g : Finding => localeLe f.id g.id) a.findings
  have hlen' : (orderedFindings a).length = 3 := by
    unfold orderedFindings
    exact hperm.length_eq.trans hlen
  obtain ⟨x, y, z, heq⟩ := List.length_eq_three.mp hlen'
  have hnodup' : ((orderedFindings a).map Finding.id).Nodup := by
    unfold orderedFindings
    exact ((hperm.map Finding.id).nodup_iff).mpr hnodup
  rw [heq] at hnodup'
  simp only [List.map_cons, List.map_nil, List.nodup_cons, List.mem_cons,
    List.mem_singleton, List.not_mem_nil, or_false, not_or,
    List.nodup_nil, and_true] at hnodup'
  obtain ⟨⟨hxy, hxz⟩, hyz⟩ := hnodup'
  have hmem' : f ∈ orderedFindings a := mem_insertionSortBy.mpr hmem
  rw [heq] at hmem'
  -- the three leaves and the fixed tree
  set ha := hashFinding keccak x with hha
  set hb := hashFinding keccak y with hhb
  set hc := hashFinding keccak z with hhc
  have hlw_a : IsLowerStr ha := isLowerStr_hashFinding keccak x
  have hlw_b : IsLowerStr hb := isLowerStr_hashFinding keccak y
  have hlw_c : IsLowerStr hc := isLowerStr_hashFinding keccak z
  have hleaves : (orderedFindings a).map (hashFinding keccak) = [ha, hb, hc] := by
    rw [heq]
    rfl
  have hroot : computeMerkleRoot keccak a
      = .ok (hashPair keccak (hashPair keccak ha hb) (hashPair keccak hc hc)) := by
    unfold computeMerkleRoot
    rw [hleaves, buildMerkleTree_three]
    rfl
  have htree := buildMerkleTree_three keccak ha hb hc
  rcases List.mem_cons.mp hmem' with rfl | hmem2
  · -- f is the first sorted finding
    refine ⟨{ auditId := a.auditId, findingId := f.id, leaf := ha
              root := hashPair keccak (hashPair keccak ha hb) (hashPair keccak hc hc)
              proof := [hb, hashPair keccak hc hc], leafIndex := 0
              totalLeaves := 3, canonicalization := canonDescriptor }, ?_, hroot, rfl, rfl⟩
    unfold buildProofForFinding
    have hidx : ([f, y, z].findIdx? fun g => g.id = f.id) = some 0 := by
      simp [List.findIdx?_cons]
    simp only [heq, List.map_cons, List.map_nil, hidx]
    rw [← hha, ← hhb, ← hhc, htree]
    simp only [Except.map]
    rw [(buildProof_three keccak ha hb hc).1]
    rfl
  rcases List.mem_cons.mp hmem2 with rfl | hmem3
  · -- f is the second sorted finding
    refine ⟨{ auditId := a.auditId, findingId := f.id, leaf := hb
              root := hashPair keccak (hashPair keccak ha hb) (hashPair keccak hc hc)
              proof := [ha, hashPair keccak hc hc], leafIndex := 1
              totalLeaves := 3, canonicalization := canonDescriptor }, ?_, hroot, rfl, ?_⟩
    · unfold buildProofForFinding
      have hidx : ([x, f, z].findIdx? fun g => g.id = f.id) = some 1 := by
        simp [List.findIdx?_cons, hxy]
      simp only [heq, List.map_cons, List.map_nil, hidx]
      rw [← hha, ← hhb, ← hhc, htree]
      simp only [Except.map]
      rw [(buildProof_three keccak ha hb hc).2.1]
      rfl
    · show hashPair keccak (hashPair keccak hb ha) (hashPair keccak hc hc) = _
      rw [hashPair_comm keccak hlw_b hlw_a]
  rcases List.mem_singleton.mp hmem3 with rfl
  -- f is the third sorted finding
  refine ⟨{ auditId := a.auditId, findingId := f.id, leaf := hc
            root := hashPair keccak (hashPair keccak ha hb) (hashPair keccak hc hc)
            proof := [hc, hashPair keccak ha hb], leafIndex := 2
            totalLeaves := 3, canonicalization := canonDescriptor }, ?_, hroot, rfl, ?_⟩
  · unfold buildProofForFinding
    have hidx : ([x, y, f].findIdx? fun g => g.id = f.id) = some 2 := by
      simp [List.findIdx?_cons, hxz, hyz.1]
    simp only [heq, List.map_cons, List.map_nil, hidx]
    rw [← hha, ← hhb, ← hhc, htree]
    simp only [Except.map]
    rw [(buildProof_three keccak ha hb hc).2.2]
    rfl
  · show hashPair keccak (hashPair keccak hc hc) (hashPair keccak ha hb) = _
    rw [hashPair_comm keccak (isLowerStr_hashPair keccak hc hc)
      (isLowerStr_hashPair keccak ha hb)]

/-- Witness for C7 on a concrete three-finding audit and a concrete hash
function. -/
theorem three_finding_proof_roundtrip_witness :
    (mkAudit [mkFinding "A", mkFinding "B", mkFinding "C"]).findings.length
      = 3 ∧
    (((mkAudit [mkFinding "A", mkFinding "B", mkFinding "C"]).findings.map
      Finding.id).Nodup) ∧
    mkFinding "A"
      ∈ (mkAudit [mkFinding "A", mkFinding "B", mkFinding "C"]).findings ∧
    buildProofForFinding (fun _ => [1])
        (mkAudit [mkFinding "A", mkFinding "B", mkFinding "C"])
        (mkFinding "A").id
      ≠ .ok none := by
  refine ⟨rfl, by decide, by decide, ?_⟩
  obtain ⟨pr, hpr, -, -, -⟩ := three_finding_proof_roundtrip (fun _ => [1])
    (mkAudit [mkFinding "A", mkFinding "B", mkFinding "C"]) (mkFinding "A")
    rfl (by decide) (by decide)
  intro hcontra
  rw [hpr] at hcontra
  simp at hcontra

/-- Witness for C8 on concrete one- and two-finding audits and a concrete
hash function. -/
theorem merkle_root_one_two_findings_witness :
    computeMerkleRoot (fun _ => [2]) (mkAudit [mkFinding "one"])
      = .ok (hashFinding (fun _ => [2]) (mkFinding "one")) ∧
    computeMerkleRoot (fun _ => [2]) (mkAudit [mkFinding "p", mkFinding "q"])
      = .ok (hashPair (fun _ => [2])
          (hashFinding (fun _ => [2]) (mkFinding "p"))
          (hashFinding (fun _ => [2]) (mkFinding "q"))) :=
  ⟨(merkle_root_one_two_findings (fun _ => [2]) (mkFinding "one")
      (mkFinding "one") (mkAudit [mkFinding "one"])).1 rfl,
   (merkle_root_one_two_findings (fun _ => [2]) (mkFinding "p") (mkFinding "q")
      (mkAudit [mkFinding "p", mkFinding "q"])).2 rfl⟩

/-- Witness for C9 on the empty audit. -/
theorem buildProofForFinding_total_witness :
    ("zzz" ∉ (mkAudit []).findings.map Finding.id) ∧
    buildProofForFinding (fun _ => [3]) (mkAudit []) "zzz" = .ok none :=
  ⟨by decide,
   (buildProofForFinding_total (fun _ => [3]) (mkAudit []) "zzz").1 (by decide)⟩

/-! ## The `SecurityAnchor` contract (claim C2)

`contracts/contracts/SecurityAnchor.sol`, embedded as a transition system:
addresses and `bytes32` words are `Nat`s (`0` is the zero address /
`bytes32(0)`), the environment supplies the caller and the block
timestamp, and a revert leaves the state unchanged. -/

structure AnchorState where
  owner : Nat
  auditRoots : Nat → Nat

inductive AnchorError where
  | notOwner
  | alreadyAnchored (auditId : Nat)
  | revertMsg (msg : String)
deriving DecidableEq, Repr

inductive AnchorEvent where
  | auditAnchored (auditId merkleRoot : Nat) (uri : String)
      (attester timestamp : Nat)
  | ownershipTransferred (previousOwner newOwner : Nat)
deriving DecidableEq, Repr

inductive AnchorCall where
  | anchorAudit (auditId merkleRoot : Nat) (uri : String)
  | transferOwnership (newOwner : Nat)
deriving DecidableEq, Repr

/-- The constructor: `owner = msg.sender`, empty root mapping. -/
def anchorInit (deployer : Nat) : AnchorState :=
  { owner := deployer, auditRoots := fun _ => 0 }

/-- One external call.  `anchorAudit` checks `onlyOwner`, then reverts
with `AlreadyAnchored(auditId)` when the stored root is non-zero,
otherwise stores the root and emits the event.  `transferOwnership`
checks `onlyOwner` and requires a non-zero new owner. -/
def execCall (s : AnchorState) (sender timestamp : Nat) :
    AnchorCall → Except AnchorError (AnchorState × List AnchorEvent)
  | .anchorAudit auditId merkleRoot uri =>
    if sender ≠ s.owner then .error .notOwner
    else if s.auditRoots auditId ≠ 0 then .error (.alreadyAnchored auditId)
    else .ok ({ owner := s.owner
                auditRoots := fun x => if x = auditId then merkleRoot
                  else s.auditRoots x },
              [.auditAnchored auditId merkleRoot uri sender timestamp])
  | .transferOwnership newOwner =>
    if sender ≠ s.owner then .error .notOwner
    else if newOwner = 0 then .error (.revertMsg "zero address")
    else .ok ({ owner := newOwner, auditRoots := s.auditRoots },
              [.ownershipTransferred s.owner newOwner])

/-- A transaction: caller, block timestamp, call.  A reverted transaction
leaves the contract state unchanged. -/
def applyTx (s : AnchorState) (tx : Nat × Nat × AnchorCall) : AnchorState :=
  match execCall s tx.1 tx.2.1 tx.2.2 with
  | .ok (s', _) => s'
  | .error _ => s

/-- Run a list of transactions from a state. -/
def runTxs (s : AnchorState) (txs : List (Nat × Nat × AnchorCall)) :
    AnchorState :=
  txs.foldl applyTx s

/-- A non-zero stored root survives any single transaction unchanged. -/
theorem applyTx_preserves_nonzero_root (s : AnchorState) (id : Nat)
    (h : s.auditRoots id ≠ 0) (tx : Nat × Nat × AnchorCall) :
    (applyTx s tx).auditRoots id = s.auditRoots id := by
  obtain ⟨sender, ts, call⟩ := tx
  cases call with
  | anchorAudit aid root uri =>
    unfold applyTx execCall
    by_cases hs : sender ≠ s.owner
    · simp [hs]
    · simp only [hs, if_false]
      by_cases hr : s.auditRoots aid ≠ 0
      · simp [hr]
      · simp only [hr, if_false]
        have hne : id ≠ aid := by
          intro hcontra
          exact hr (hcontra ▸ h)
        simp [hne]
  | transferOwnership newOwner =>
    unfold applyTx execCall
    by_cases hs : sender ≠ s.owner
    · simp [hs]
    · by_cases hz : newOwner = 0
      · simp [hs, hz]
      · simp [hs, hz]

/-- A non-zero stored root survives any transaction sequence unchanged. -/
theorem runTxs_preserves_nonzero_root (id : Nat) :
    ∀ (txs : List (Nat × Nat × AnchorCall)) (s : AnchorState),
      s.auditRoots id ≠ 0 → (runTxs s txs).auditRoots id = s.auditRoots id
  | [], _, _ => rfl
  | tx :: txs, s, h => by
    unfold runTxs
    rw [List.foldl_cons]
    have h1 := applyTx_preserves_nonzero_root s id h tx
    have h2 := runTxs_preserves_nonzero_root id txs (applyTx s tx)
      (by rw [h1]; exact h)
    unfold runTxs at h2
    rw [h2, h1]

/-- C2 (amended): once `anchorAudit` has succeeded for an identifier with
a *non-zero* Merkle root, the stored root for that identifier never
changes across any later transaction sequence, and every subsequent
`anchorAudit` call for the same identifier reverts — with
`AlreadyAnchored` carrying that identifier whenever the caller is the
owner (a non-owner caller reverts with `NotOwner` instead) — regardless
of the value of the new Merkle root. -/
theorem anchorAudit_once_nonzero_root (s : AnchorState)
    (sender ts auditId root : Nat) (uri : String)
    (s' : AnchorState) (evs : List AnchorEvent)
    (hroot : root ≠ 0)
    (hok : execCall s sender ts (.anchorAudit auditId root uri)
      = .ok (s', evs))
    (txs : List (Nat × Nat × AnchorCall)) :
    (runTxs s' txs).auditRoots auditId = root ∧
    (∀ sender2 ts2 root2 uri2,
      (execCall (runTxs s' txs) sender2 ts2
        (.anchorAudit auditId root2 uri2)).isOk = false) ∧
    (∀ ts2 root2 uri2,
      execCall (runTxs s' txs) (runTxs s' txs).owner ts2
        (.anchorAudit auditId root2 uri2)
        = .error (.alreadyAnchored auditId)) := by
  have hs' : s'.auditRoots auditId = root := by
    unfold execCall at hok
    by_cases hs : sender ≠ s.owner
    · simp [hs] at hok
    · simp only [hs, if_false] at hok
      by_cases hr : s.auditRoots auditId ≠ 0
      · simp [hr] at hok
      · simp only [hr, if_false, Except.ok.injEq, Prod.mk.injEq] at hok
        rw [← hok.1]
        simp
  have hkeep : (runTxs s' txs).auditRoots auditId = root := by
    rw [runTxs_preserves_nonzero_root auditId txs s' (by rw [hs']; exact hroot)]
    exact hs'
  refine ⟨hkeep, ?_, ?_⟩
  · intro sender2 ts2 root2 uri2
    unfold execCall
    by_cases hs2 : sender2 ≠ (runTxs s' txs).owner
    · simp [hs2, Except.isOk, Except.toBool]
    · have hnz : (runTxs s' txs).auditRoots auditId ≠ 0 := by
        rw [hkeep]; exact hroot
      simp [hs2, hnz, Except.isOk, Except.toBool]
  · intro ts2 root2 uri2
    unfold execCall
    have : (runTxs s' txs).auditRoots auditId ≠ 0 := by
      rw [hkeep]; exact hroot
    simp [this]

/-- C2 (counterexample to the claim as stated): anchoring with Merkle
root `0` succeeds and stores `0`, after which a second `anchorAudit` for
the same identifier does *not* revert — it succeeds and overwrites the
stored root (`0` → `5`).  The one-time-write guarantee therefore fails
when the first anchor used the zero root. -/
theorem anchorAudit_zero_root_reanchor_cex :
    (execCall (anchorInit 1) 1 10 (.anchorAudit 7 0 "u")).isOk = true ∧
    (runTxs (anchorInit 1) [(1, 10, .anchorAudit 7 0 "u")]).auditRoots 7 = 0 ∧
    (execCall (runTxs (anchorInit 1) [(1, 10, .anchorAudit 7 0 "u")]) 1 11
      (.anchorAudit 7 5 "v")).isOk = true ∧
    (runTxs (anchorInit 1)
      [(1, 10, .anchorAudit 7 0 "u"), (1, 11, .anchorAudit 7 5 "v")]).auditRoots 7
      = 5 := by
  refine ⟨rfl, rfl, rfl, rfl⟩

/-- A concrete post-anchor contract state used by the C2 witness. -/
def anchorDemoState : AnchorState :=
  { owner := 1, auditRoots := fun x => if x = 7 then 3 else 0 }

/-- Witness for the amended C2 on a concrete state and trace. -/
theorem anchorAudit_once_nonzero_root_witness :
    (3 : Nat) ≠ 0 ∧
    execCall (anchorInit 1) 1 10 (.anchorAudit 7 3 "u")
      = .ok (anchorDemoState, [.auditAnchored 7 3 "u" 1 10]) ∧
    (runTxs anchorDemoState [(1, 11, .transferOwnership 2)]).auditRoots 7 = 3 ∧
    (execCall (runTxs anchorDemoState [(1, 11, .transferOwnership 2)]) 9 12
      (.anchorAudit 7 4 "w")).isOk = false ∧
    execCall (runTxs anchorDemoState [(1, 11, .transferOwnership 2)])
      (runTxs anchorDemoState [(1, 11, .transferOwnership 2)]).owner 12
      (.anchorAudit 7 4 "w") = .error (.alreadyAnchored 7) := by
  have h := anchorAudit_once_nonzero_root (anchorInit 1) 1 10 7 3 "u"
    anchorDemoState [.auditAnchored 7 3 "u" 1 10] (by decide) rfl
    [(1, 11, .transferOwnership 2)]
  exact ⟨by decide, rfl, h.1, h.2.1 9 12 4 "w", h.2.2 12 4 "w"⟩

/-! ## The signature verification module (claim C5)

`verifyAuditSignature` from `apps/api/src/signatures.ts`.  The `ethers`
primitives are parameters: `isAddress` (syntactic address validity),
`getAddress` (EIP-55 checksum normalization — comparing two addresses
through it is the code's case-insensitive comparison), and
`verifyMessage` (EIP-191 personal-sign recovery; `none` models the
recovery throw caught by the surrounding `try`). -/

structure SignatureValidationResult where
  ok : Bool
  recoveredAddress : Option String
  error : Option String
deriving DecidableEq, Repr

/-- `verifyAuditSignature(audit, signature)`. -/
def verifyAuditSignature (isAddress : String → Bool)
    (getAddress : String → String)
    (verifyMessage : String → String → Option String)
    (audit : AuditReport) (sg : Signature) : SignatureValidationResult :=
  if sg.scheme ≠ .eip191 then
    { ok := false, recoveredAddress := none,
      error := some ("unsupported_signature_scheme:" ++ sg.scheme.toStr) }
  else if !isAddress sg.signer then
    { ok := false, recoveredAddress := none,
      error := some "invalid_signer_address" }
  else
    match verifyMessage (canonicalAuditMessage audit) sg.signature with
    | none =>
      { ok := false, recoveredAddress := none,
        error := some "invalid_signature" }
    | some recovered =>
      if getAddress recovered ≠ getAddress sg.signer then
        { ok := false, recoveredAddress := some recovered,
          error := some "signature_mismatch" }
      else
        { ok := true, recoveredAddress := some recovered, error := none }

/-- C5: the five outcomes of `verifyAuditSignature`, exactly as the claim
orders them — non-`eip191` schemes are rejected with a signal naming the
scheme; a syntactically invalid signer is rejected; a recovery throw
yields the generic `invalid_signature`; a recovered address that differs
from the claimed signer after checksum normalization yields
`signature_mismatch` together with the recovered address; otherwise
verification succeeds.  The message signed over is always the
canonicalized unsigned audit (`canonicalAuditMessage`, the
`signatures`-stripped serialization). -/
theorem verifyAuditSignature_cases (isAddress : String → Bool)
    (getAddress : String → String)
    (verifyMessage : String → String → Option String)
    (audit : AuditReport) (sg : Signature) :
    (sg.scheme ≠ .eip191 →
      verifyAuditSignature isAddress getAddress verifyMessage audit sg
        = { ok := false, recoveredAddress := none,
            error := some ("unsupported_signature_scheme:" ++ sg.scheme.toStr) }) ∧
    (sg.scheme = .eip191 → isAddress sg.signer = false →
      verifyAuditSignature isAddress getAddress verifyMessage audit sg
        = { ok := false, recoveredAddress := none,
            error := some "invalid_signer_address" }) ∧
    (sg.scheme = .eip191 → isAddress sg.signer = true →
      verifyMessage (canonicalAuditMessage audit) sg.signature = none →
      verifyAuditSignature isAddress getAddress verifyMessage audit sg
        = { ok := false, recoveredAddress := none,
            error := some "invalid_signature" }) ∧
    (∀ r : String, sg.scheme = .eip191 → isAddress sg.signer = true →
      verifyMessage (canonicalAuditMessage audit) sg.signature = some r →
      getAddress r ≠ getAddress sg.signer →
      verifyAuditSignature isAddress getAddress verifyMessage audit sg
        = { ok := false, recoveredAddress := some r,
            error := some "signature_mismatch" }) ∧
    (∀ r : String, sg.scheme = .eip191 → isAddress sg.signer = true →
      verifyMessage (canonicalAuditMessage audit) sg.signature = some r →
      getAddress r = getAddress sg.signer →
      verifyAuditSignature isAddress getAddress verifyMessage audit sg
        = { ok := true, recoveredAddress := some r, error := none }) := by
  refine ⟨?_, ?_, ?_, ?_, ?_⟩
  · intro hscheme
    unfold verifyAuditSignature
    simp [hscheme]
  · intro hscheme haddr
    unfold verifyAuditSignature
    simp [hscheme, haddr]
  · intro hscheme haddr hrec
    unfold verifyAuditSignature
    simp [hscheme, haddr, hrec]
  · intro r hscheme haddr hrec hne
    unfold verifyAuditSignature
    simp [hscheme, haddr, hrec, hne]
  · intro r hscheme haddr hrec heq
    unfold verifyAuditSignature
    simp [hscheme, haddr, hrec, heq]

/-- Witness for C5: the `signature_mismatch` branch at a concrete input
(trivial recovery returning `"R"`, identity checksumming, claimed signer
`"S"`). -/
theorem verifyAuditSignature_cases_witness :
    ({ signer := "S", signature := "sig", scheme := .eip191,
       signedAt := none } : Signature).scheme = .eip191 ∧
    (fun _ : String => true) "S" = true ∧
    (fun _ _ : String => some "R") (canonicalAuditMessage (mkAudit []))
      "sig" = some "R" ∧
    (fun a : String => a) "R" ≠ (fun a : String => a) "S" ∧
    verifyAuditSignature (fun _ => true) (fun a => a) (fun _ _ => some "R")
      (mkAudit [])
      { signer := "S", signature := "sig", scheme := .eip191, signedAt := none }
      = { ok := false, recoveredAddress := some "R",
          error := some "signature_mismatch" } :=
  ⟨rfl, rfl, rfl, by decide,
   (verifyAuditSignature_cases (fun _ => true) (fun a => a)
      (fun _ _ => some "R") (mkAudit [])
      { signer := "S", signature := "sig", scheme := .eip191,
        signedAt := none }).2.2.2.1 "R" rfl rfl rfl (by decide)⟩

/-! ## The storage layer (claim C4)

`insertAudit` from the storage module: a transaction that checks for a
duplicate `auditId`, inserts one audit row, one row per finding and one
row per signature, and commits; any statement failure rolls the whole
transaction back.  Date normalization (`toMysqlDateTime`, which wraps the
host's date parser) is a parameter; statement failures are injected by a
fault oracle indexed by statement position (0 = the duplicate-check
`SELECT`, 1 = the audit `INSERT`, `2 + i` = the `i`-th finding `INSERT`,
`2 + #findings + j` = the `j`-th signature `INSERT`).  `JSON`-typed
columns hold the serialized value, modelled by the value itself; the
`raw_json` column holds the entire original payload. -/

structure AuditorRecord where
  address : String
  name : String
  website : Option String
  identity : Option String
  publicKey : Option String
  active : Bool
deriving DecidableEq, Repr

structure AuditRow where
  auditId : String
  schemaVersion : String
  reportDate : String
  projectName : String
  projectSlug : Option String
  projectRepository : Option String
  projectVersion : Option String
  projectContractAddresses : Option (List String)
  auditorName : String
  auditorWebsite : Option String
  auditorPublicKey : Option String
  auditorIdentity : Option String
  commitHash : Option String
  network : Option String
  artifactsIpfsCid : Option String
  artifactsReportUrl : Option String
  metadata : Option (List (String × JsValue))
  rawJson : AuditReport
deriving Repr

structure FindingRow where
  auditId : String
  findingId : String
  title : String
  severity : String
  status : String
  description : Option String
  category : Option String
  cwe : Option (List String)
  affectedContracts : Option (List String)
  affectedAddresses : Option (List String)
  codeReferences : Option (List CodeReference)
  recommendation : Option String
  remediation : Option String
  findingCreatedAt : Option String
  findingUpdatedAt : Option String
  tags : Option (List String)
deriving DecidableEq, Repr

structure SignatureRow where
  auditId : String
  signer : String
  signature : String
  scheme : String
  signedAt : Option String
deriving DecidableEq, Repr

structure Database where
  audits : List AuditRow
  findings : List FindingRow
  signatures : List SignatureRow
  auditors : List AuditorRecord
deriving Repr

/-- The audit `INSERT`'s column values. -/
def auditRowOf (r : AuditReport) : AuditRow :=
  { auditId := r.auditId
    schemaVersion := r.schemaVersion
    reportDate := r.reportDate
    projectName := r.project.name
    projectSlug := r.project.slug
    projectRepository := r.project.repository
    projectVersion := r.project.version
    projectContractAddresses := r.project.contractAddresses
    auditorName := r.auditor.name
    auditorWebsite := r.auditor.website
    auditorPublicKey := r.auditor.publicKey
    auditorIdentity := r.auditor.identity
    commitHash := r.commit
    network := r.network
    artifactsIpfsCid := r.artifacts.bind fun a => a.ipfsCid
    artifactsReportUrl := r.artifacts.bind fun a => a.reportUrl
    metadata := r.metadata
    rawJson := r }

/-- The finding `INSERT`'s column values. -/
def findingRowOf (toMysql : Option String → Option String)
    (auditId : String) (f : Finding) : FindingRow :=
  { auditId := auditId
    findingId := f.id
    title := f.title
    severity := f.severity.toStr
    status := f.status.toStr
    description := f.description
    category := f.category
    cwe := f.cwe
    affectedContracts := f.affectedContracts
    affectedAddresses := f.affectedAddresses
    codeReferences := f.codeReferences
    recommendation := f.recommendation
    remediation := f.remediation
    findingCreatedAt := toMysql f.createdAt
    findingUpdatedAt := toMysql f.updatedAt
    tags := f.tags }

/-- The signature `INSERT`'s column values. -/
def signatureRowOf (toMysql : Option String → Option String)
    (auditId : String) (sg : Signature) : SignatureRow :=
  { auditId := auditId
    signer := sg.signer
    signature := sg.signature
    scheme := sg.scheme.toStr
    signedAt := toMysql sg.signedAt }

/-- The `for (const finding of report.findings)` insert loop inside the
transaction. -/
def insertFindingsTx (toMysql : Option String → Option String)
    (fault : Nat → Bool) :
    Nat → String → Database → List Finding → Except Unit Database
  | _, _, db, [] => .ok db
  | n, aid, db, f :: fs =>
    if fault n then .error ()
    else insertFindingsTx toMysql fault (n + 1) aid
      { db with findings := db.findings ++ [findingRowOf toMysql aid f] } fs

/-- The signature insert loop inside the transaction. -/
def insertSignaturesTx (toMysql : Option String → Option String)
    (fault : Nat → Bool) :
    Nat → String → Database → List Signature → Except Unit Database
  | _, _, db, [] => .ok db
  | n, aid, db, sg :: sgs =>
    if fault n then .error ()
    else insertSignaturesTx toMysql fault (n + 1) aid
      { db with signatures := db.signatures ++ [signatureRowOf toMysql aid sg] }
      sgs

/-- `insertAudit(report)`: begin; duplicate check (roll back and report
`exists` without error on a hit); audit row; finding rows; signature rows
(`report.signatures ?? []` — absent is an empty list); commit.  A thrown
statement (`.error`) rolls back to the caller's database. -/
def insertAudit (toMysql : Option String → Option String)
    (fault : Nat → Bool) (db : Database) (r : AuditReport) :
    Database × Except Unit Bool :=
  if fault 0 then (db, .error ())
  else if db.audits.any fun a => a.auditId = r.auditId then (db, .ok true)
  else if fault 1 then (db, .error ())
  else
    match insertFindingsTx toMysql fault 2 r.auditId
        { db with audits := db.audits ++ [auditRowOf r] } r.findings with
    | .error _ => (db, .error ())
    | .ok db2 =>
      match insertSignaturesTx toMysql fault (2 + r.findings.length) r.auditId
          db2 (r.signatures.getD []) with
      | .error _ => (db, .error ())
      | .ok db3 => (db3, .ok false)

theorem insertFindingsTx_ok (toMysql : Option String → Option String)
    (fault : Nat → Bool) (aid : String) :
    ∀ (fs : List Finding) (n : Nat) (db db2 : Database),
      insertFindingsTx toMysql fault n aid db fs = .ok db2 →
      db2 = { db with
        findings := db.findings ++ fs.map (findingRowOf toMysql aid) }
  | [], n, db, db2 => by
    intro h
    simp only [insertFindingsTx, Except.ok.injEq] at h
    simp [← h]
  | f :: fs, n, db, db2 => by
    intro h
    simp only [insertFindingsTx] at h
    by_cases hf : fault n = true
    · simp [hf] at h
    · simp only [hf] at h
      simp only [Bool.false_eq_true, if_false] at h
      have := insertFindingsTx_ok toMysql fault aid fs (n + 1)
        { db with findings := db.findings ++ [findingRowOf toMysql aid f] }
        db2 h
      rw [this]
      simp

theorem insertSignaturesTx_ok (toMysql : Option String → Option String)
    (fault : Nat → Bool) (aid : String) :
    ∀ (sgs : List Signature) (n : Nat) (db db2 : Database),
      insertSignaturesTx toMysql fault n aid db sgs = .ok db2 →
      db2 = { db with
        signatures := db.signatures ++ sgs.map (signatureRowOf toMysql aid) }
  | [], n, db, db2 => by
    intro h
    simp only [insertSignaturesTx, Except.ok.injEq] at h
    simp [← h]
  | sg :: sgs, n, db, db2 => by
    intro h
    simp only [insertSignaturesTx] at h
    by_cases hf : fault n = true
    · simp [hf] at h
    · simp only [hf] at h
      simp only [Bool.false_eq_true, if_false] at h
      have := insertSignaturesTx_ok toMysql fault aid sgs (n + 1)
        { db with
          signatures := db.signatures ++ [signatureRowOf toMysql aid sg] }
        db2 h
      rw [this]
      simp

/-- C4: `insertAudit` is all-or-nothing and duplicate-safe.  A duplicate
`auditId` (with a healthy duplicate check) rolls back, reports "already
exists" without raising, and changes nothing; any statement failure rolls
back to exactly the caller's database; a successful insert adds exactly
one audit row carrying the entire original payload in `raw_json`, one row
per finding, and one row per signature, and nothing else. -/
theorem insertAudit_transactional (toMysql : Option String → Option String)
    (fault : Nat → Bool) (db : Database) (r : AuditReport) :
    ((fault 0 = false ∧
        (db.audits.any fun a => a.auditId = r.auditId) = true) →
      insertAudit toMysql fault db r = (db, .ok true)) ∧
    ((insertAudit toMysql fault db r).2 = .error () →
      (insertAudit toMysql fault db r).1 = db) ∧
    ((insertAudit toMysql fault db r).2 = .ok true →
      (insertAudit toMysql fault db r).1 = db ∧
      (db.audits.any fun a => a.auditId = r.auditId) = true) ∧
    ((insertAudit toMysql fault db r).2 = .ok false →
      (db.audits.any fun a => a.auditId = r.auditId) = false ∧
      (insertAudit toMysql fault db r).1 =
        { audits := db.audits ++ [auditRowOf r]
          findings := db.findings ++
            r.findings.map (findingRowOf toMysql r.auditId)
          signatures := db.signatures ++
            (r.signatures.getD []).map (signatureRowOf toMysql r.auditId)
          auditors := db.auditors }) := by
  by_cases h0 : fault 0 = true
  · refine ⟨?_, ?_, ?_, ?_⟩ <;>
      simp [insertAudit, h0]
  · by_cases hdup : (db.audits.any fun a => a.auditId = r.auditId) = true
    · refine ⟨?_, ?_, ?_, ?_⟩ <;>
        simp [insertAudit, h0, hdup]
    · by_cases h1 : fault 1 = true
      · refine ⟨?_, ?_, ?_, ?_⟩ <;>
          simp [insertAudit, h0, hdup, h1]
      · cases hfs : insertFindingsTx toMysql fault 2 r.auditId
            { db with audits := db.audits ++ [auditRowOf r] } r.findings with
        | error e =>
          refine ⟨?_, ?_, ?_, ?_⟩ <;>
            simp [insertAudit, h0, hdup, h1, hfs]
        | ok db2 =>
          cases hsgs : insertSignaturesTx toMysql fault
              (2 + r.findings.length) r.auditId db2 (r.signatures.getD []) with
          | error e =>
            refine ⟨?_, ?_, ?_, ?_⟩ <;>
              simp [insertAudit, h0, hdup, h1, hfs, hsgs]
          | ok db3 =>
            have hdb2 := insertFindingsTx_ok toMysql fault r.auditId
              r.findings 2 _ db2 hfs
            have hdb3 := insertSignaturesTx_ok toMysql fault r.auditId
              (r.signatures.getD []) (2 + r.findings.length) db2 db3 hsgs
            refine ⟨?_, ?_, ?_, ?_⟩ <;>
              simp only [insertAudit, h0, hdup, h1, hfs, hsgs,
                Bool.false_eq_true, if_false]
            · intro hcontra
              exact absurd hcontra.2 (by simp [hdup])
            · intro hcontra
              simp at hcontra
            · intro hcontra
              simp at hcontra
            · intro _
              refine ⟨trivial, ?_⟩
              rw [hdb3, hdb2]

/-- Witness for C4: the duplicate branch and the success branch at
concrete inputs. -/
theorem insertAudit_transactional_witness :
    ((fun _ : Nat => false) 0 = false ∧
      ((Database.mk [auditRowOf (mkAudit [])] [] [] []).audits.any
        fun a => a.auditId = (mkAudit []).auditId) = true) ∧
    insertAudit (fun x => x) (fun _ => false)
        (Database.mk [auditRowOf (mkAudit [])] [] [] []) (mkAudit [])
      = (Database.mk [auditRowOf (mkAudit [])] [] [] [], .ok true) ∧
    (insertAudit (fun x => x) (fun _ => false) (Database.mk [] [] [] [])
        (mkAudit [mkFinding "w"])).2 = .ok false ∧
    (insertAudit (fun x => x) (fun _ => false) (Database.mk [] [] [] [])
        (mkAudit [mkFinding "w"])).1 =
      { audits := [auditRowOf (mkAudit [mkFinding "w"])]
        findings := [findingRowOf (fun x => x) "audit-1" (mkFinding "w")]
        signatures := []
        auditors := [] } := by
  have hhyp : ((fun _ : Nat => false) 0 = false ∧
      ((Database.mk [auditRowOf (mkAudit [])] [] [] []).audits.any
        fun a => a.auditId = (mkAudit []).auditId) = true) := ⟨rfl, by decide⟩
  have hsucc := (insertAudit_transactional (fun x => x) (fun _ => false)
    (Database.mk [] [] [] []) (mkAudit [mkFinding "w"])).2.2.2 rfl
  refine ⟨hhyp,
    (insertAudit_transactional (fun x => x) (fun _ => false)
      (Database.mk [auditRowOf (mkAudit [])] [] [] []) (mkAudit [])).1 hhyp,
    rfl, ?_⟩
  rw [hsucc.2]
  rfl

/-! ## The `POST /v1/submissions` handler (claim C10)

The route handler from the API server: payload presence, schema
validation (the compiled AJV validator is a parameter), signature-field
presence (JavaScript falsiness of a string is emptiness), syntactic
address validity, checksum normalization of the signer, registry lookup
and active-flag gating, signature construction with
`scheme: payload.signature.scheme ?? "eip191"`, verification, and
verify-then-ingest through `insertAudit`.  An exception thrown by
`insertAudit` propagates (a generic server error). -/

structure SubmissionSig where
  signer : String
  signature : String
  scheme : Option SigScheme
  signedAt : Option String
deriving DecidableEq, Repr

structure SubmissionPayload where
  audit : Option AuditReport
  signature : Option SubmissionSig
deriving Repr

inductive SubmissionResponse where
  | invalidSubmissionPayload
  | invalidAudit
  | invalidSignaturePayload
  | invalidSignerAddress
  | auditorNotRegistered (signer : String)
  | auditorInactive (signer : String)
  | verificationFailed (error : Option String) (recoveredAddress : Option String)
  | auditExists (auditId : String)
  | serverError
  | stored (auditId : String) (signer : String)
deriving DecidableEq, Repr

/-- `getAuditorByAddress` — point lookup in the auditors table. -/
def getAuditorByAddress (db : Database) (address : String) :
    Option AuditorRecord :=
  db.auditors.find? fun a => a.address = address

/-- The `POST /v1/submissions` handler body. -/
def handleSubmission (validator : AuditReport → Bool)
    (isAddress : String → Bool) (getAddress : String → String)
    (verifyMessage : String → String → Option String)
    (toMysql : Option String → Option String) (fault : Nat → Bool)
    (db : Database) (payload : SubmissionPayload) :
    Database × SubmissionResponse :=
  match payload.audit, payload.signature with
  | some audit, some sp =>
    if !validator audit then (db, .invalidAudit)
    else if sp.signer = "" ∨ sp.signature = "" then
      (db, .invalidSignaturePayload)
    else if !isAddress sp.signer then (db, .invalidSignerAddress)
    else
      let signer := getAddress sp.signer
      match getAuditorByAddress db signer with
      | none => (db, .auditorNotRegistered signer)
      | some auditor =>
        if !auditor.active then (db, .auditorInactive signer)
        else
          let sg : Signature :=
            { signer := signer, signature := sp.signature,
              scheme := sp.scheme.getD .eip191, signedAt := sp.signedAt }
          let verification :=
            verifyAuditSignature isAddress getAddress verifyMessage audit sg
          if !verification.ok then
            (db, .verificationFailed verification.error
              verification.recoveredAddress)
          else
            let report : AuditReport :=
              { audit with
                signatures := some ((audit.signatures.getD []) ++ [sg]) }
            match insertAudit toMysql fault db report with
            | (db2, .error _) => (db2, .serverError)
            | (db2, .ok true) => (db2, .auditExists report.auditId)
            | (db2, .ok false) => (db2, .stored report.auditId signer)
  | _, _ => (db, .invalidSubmissionPayload)

/-- The signature the handler constructs before verifying and storing:
checksum-normalized signer, the submitted scheme defaulted to `eip191`
when omitted (`payload.signature.scheme ?? "eip191"`); stated here for
the omitted-scheme case. -/
def normSig (getAddress : String → String) (sp : SubmissionSig) : Signature :=
  { signer := getAddress sp.signer, signature := sp.signature,
    scheme := .eip191, signedAt := sp.signedAt }

/-- The report the handler stores: the submitted audit with the verified
signature appended to its (possibly absent) signatures list. -/
def reportWithSig (audit : AuditReport) (sg : Signature) : AuditReport :=
  { audit with signatures := some ((audit.signatures.getD []) ++ [sg]) }

/-- C10: when the submitted signature object omits the `scheme` field, the
handler builds `normSig` — scheme `eip191`, signer replaced by its
checksum-normalized form — verifies exactly that signature, and on
success stores the audit with exactly that one signature appended: the
stored `raw_json` row is `reportWithSig`, and one signature row per entry
of its signatures list (the original ones plus the new one) is
inserted. -/
theorem submissions_default_scheme_eip191 (validator : AuditReport → Bool)
    (isAddress : String → Bool) (getAddress : String → String)
    (verifyMessage : String → String → Option String)
    (toMysql : Option String → Option String) (fault : Nat → Bool)
    (db : Database) (audit : AuditReport) (sp : SubmissionSig)
    (auditor : AuditorRecord)
    (hscheme : sp.scheme = none)
    (hval : validator audit = true)
    (hsigner : sp.signer ≠ "") (hsig : sp.signature ≠ "")
    (haddr : isAddress sp.signer = true)
    (hreg : getAuditorByAddress db (getAddress sp.signer) = some auditor)
    (hact : auditor.active = true) :
    ((verifyAuditSignature isAddress getAddress verifyMessage audit
        (normSig getAddress sp)).ok = false →
      handleSubmission validator isAddress getAddress verifyMessage toMysql
          fault db { audit := some audit, signature := some sp }
        = (db, .verificationFailed
            (verifyAuditSignature isAddress getAddress verifyMessage audit
              (normSig getAddress sp)).error
            (verifyAuditSignature isAddress getAddress verifyMessage audit
              (normSig getAddress sp)).recoveredAddress)) ∧
    ((verifyAuditSignature isAddress getAddress verifyMessage audit
        (normSig getAddress sp)).ok = true →
      ∀ db3 : Database,
        insertAudit toMysql fault db
            (reportWithSig audit (normSig getAddress sp)) = (db3, .ok false) →
        handleSubmission validator isAddress getAddress verifyMessage toMysql
            fault db { audit := some audit, signature := some sp }
          = (db3, .stored audit.auditId (getAddress sp.signer)) ∧
        db3.audits = db.audits ++
          [auditRowOf (reportWithSig audit (normSig getAddress sp))] ∧
        db3.signatures = db.signatures ++
          ((audit.signatures.getD []) ++ [normSig getAddress sp]).map
            (signatureRowOf toMysql audit.auditId) ∧
        (reportWithSig audit (normSig getAddress sp)).signatures
          = some ((audit.signatures.getD []) ++ [normSig getAddress sp])) := by
  have hnorm :
      ({ signer := getAddress sp.signer,
         signature := sp.signature,
         scheme := sp.scheme.getD .eip191,
         signedAt := sp.signedAt } : Signature)
      = normSig getAddress sp := by
    rw [hscheme]
    rfl
  constructor
  · intro hver
    unfold handleSubmission
    simp only [hval, Bool.not_true, Bool.false_eq_true, if_false, hreg,
      hact, hnorm, hver, if_true]
    all_goals simp [hsigner, hsig, haddr, hnorm, hver, reportWithSig]
  · intro hver db3 hins
    have hok2 : (insertAudit toMysql fault db
        (reportWithSig audit (normSig getAddress sp))).2 = .ok false := by
      rw [hins]
    have hrows2 := (insertAudit_transactional toMysql fault db
      (reportWithSig audit (normSig getAddress sp))).2.2.2 hok2
    have h1 : (insertAudit toMysql fault db
        (reportWithSig audit (normSig getAddress sp))).1 = db3 := by
      rw [hins]
    have hmain : handleSubmission validator isAddress getAddress verifyMessage
        toMysql fault db { audit := some audit, signature := some sp }
        = (db3, .stored audit.auditId (getAddress sp.signer)) := by
      unfold handleSubmission
      have hins2 : insertAudit toMysql fault db
          { audit with signatures := some ((audit.signatures.getD []) ++
              [normSig getAddress sp]) } = (db3, .ok false) := hins
      simp only [hval, Bool.not_true, Bool.false_eq_true, if_false, hreg,
        hact, hnorm, hver, if_true]
      all_goals simp [hsigner, hsig, haddr, hins2, reportWithSig]
    refine ⟨hmain, ?_, ?_, rfl⟩
    · rw [← h1, hrows2.2]
    · rw [← h1, hrows2.2]
      simp [reportWithSig]

/-- Concrete registry entry for the C10 witness. -/
def demoAuditor : AuditorRecord :=
  { address := "S", name := "Audit Co", website := none, identity := none,
    publicKey := none, active := true }

/-- Concrete database for the C10 witness. -/
def demoDb : Database :=
  { audits := [], findings := [], signatures := [], auditors := [demoAuditor] }

/-- Concrete submitted signature (scheme omitted) for the C10 witness. -/
def demoSub : SubmissionSig :=
  { signer := "S", signature := "sig", scheme := none, signedAt := none }

/-- The database after the C10 witness submission is stored. -/
def demoDb3 : Database :=
  { audits := [auditRowOf (reportWithSig (mkAudit [])
      (normSig (fun a => a) demoSub))]
    findings := []
    signatures := [signatureRowOf (fun x => x) "audit-1"
      (normSig (fun a => a) demoSub)]
    auditors := [demoAuditor] }

/-- Witness for C10 at a concrete submission whose signature omits the
scheme field: the handler stores it as scheme `eip191`. -/
theorem submissions_default_scheme_eip191_witness :
    demoSub.scheme = none ∧
    demoSub.signer ≠ "" ∧
    demoSub.signature ≠ "" ∧
    getAuditorByAddress demoDb ((fun a : String => a) demoSub.signer)
      = some demoAuditor ∧
    demoAuditor.active = true ∧
    (verifyAuditSignature (fun _ => true) (fun a => a) (fun _ _ => some "S")
      (mkAudit []) (normSig (fun a => a) demoSub)).ok = true ∧
    insertAudit (fun x => x) (fun _ => false) demoDb
        (reportWithSig (mkAudit []) (normSig (fun a => a) demoSub))
      = (demoDb3, .ok false) ∧
    handleSubmission (fun _ => true) (fun _ => true) (fun a => a)
        (fun _ _ => some "S") (fun x => x) (fun _ => false) demoDb
        { audit := some (mkAudit []), signature := some demoSub }
      = (demoDb3, .stored "audit-1" "S") ∧
    demoDb3.audits = demoDb.audits ++
      [auditRowOf (reportWithSig (mkAudit []) (normSig (fun a => a) demoSub))] ∧
    (reportWithSig (mkAudit []) (normSig (fun a => a) demoSub)).signatures
      = some [normSig (fun a => a) demoSub] := by
  have h := submissions_default_scheme_eip191 (fun _ => true) (fun _ => true)
    (fun a => a) (fun _ _ => some "S") (fun x => x) (fun _ => false) demoDb
    (mkAudit []) demoSub demoAuditor rfl rfl (by decide) (by decide) rfl rfl rfl
  have h2 := h.2 rfl demoDb3 rfl
  exact ⟨rfl, by decide, by decide, rfl, rfl, rfl, rfl, h2.1, h2.2.1, h2.2.2.2⟩

end VeriSec
